import Mathlib

/-!
# PageRank by Gauss–Seidel relaxation (`parallel.c`)

A shallow embedding of the computational core of `parallel.c`:

* the builder of the row-stochastic matrix `S` (edge marking, out-link
  counting and normalisation, transpose `St`),
* the assembly of the damped system `A = I - d * St`, `b = (1 - d) / n`,
* the relaxation `do … while` loop, rows taken in index order,
* `swap` and `bubbleSort` on the parallel score / name arrays,
* the edge-record loop with its `fscanf` check and the report loop over the
  first ten slots.

Arrays are functions from indices, updated pointwise; `for` loops are
`forLoop`; the `do … while` loop carries explicit fuel. The arithmetic is taken
twice: exactly, over the rationals, for the statements about exact arithmetic;
and with a rounding after every operation (`roundDouble`, binary64) as the
source computes, in the definitions whose names end in `R`.
-/

namespace PageRank

/-! ## Loops and arrays -/

/-- The loop `for (int i = 0; i < n; i++) s = body i s`. -/
def forLoop {σ : Type} : Nat → (Nat → σ → σ) → σ → σ
  | 0, _, s => s
  | k + 1, body, s => body k (forLoop k body s)

/-- The assignment `M[i][j] = v` on a two-dimensional array. -/
def setM (M : Nat → Nat → ℚ) (i j : Nat) (v : ℚ) : Nat → Nat → ℚ :=
  Function.update M i (Function.update (M i) j v)

/-- The global `double d = 0.75`. -/
def d : ℚ := 0.75

/-! ## Stochastic matrix builder (lines 108–150) -/

/-- Lines 116–123: every edge `temp1 temp2` of the input (1-based) performs
`S[temp1 - 1][temp2 - 1] = 1.0` on the zero matrix left by `calloc`. -/
def markEdges (edges : List (Nat × Nat)) : Nat → Nat → ℚ :=
  edges.foldl (fun S e => setM S (e.1 - 1) (e.2 - 1) 1) (fun _ _ => 0)

/-- The arrays written by the normalisation loop. -/
structure BuildState where
  S : Nat → Nat → ℚ
  St : Nat → Nat → ℚ
  outlinks : Nat → Nat

/-- Lines 136–140: `if (S[i][j] == 1.0) outlinks[i]++`. -/
def countBody (i j : Nat) (s : BuildState) : BuildState :=
  if s.S i j = 1 then { s with outlinks := Function.update s.outlinks i (s.outlinks i + 1) }
  else s

/-- Lines 142–149: uniform row for a dangling entity, division by the
out-link count otherwise, then the copy into `St[j][i]`. -/
def normBody (n i j : Nat) (s : BuildState) : BuildState :=
  let S1 : Nat → Nat → ℚ :=
    if s.outlinks i = 0 then setM s.S i j (1 / (n : ℚ))
    else if s.S i j ≠ 0 then setM s.S i j (s.S i j / (s.outlinks i : ℚ))
    else s.S
  { s with S := S1, St := setM s.St j i (S1 i j) }

/-- Lines 135–150: the body of the outer loop over `i`. -/
def rowBody (n i : Nat) (s : BuildState) : BuildState :=
  forLoop n (normBody n i) (forLoop n (countBody i) s)

/-- Lines 108–150: marking followed by the normalisation loop, from zeroed
`St` and `outlinks`. -/
def build (n : Nat) (edges : List (Nat × Nat)) : BuildState :=
  forLoop n (rowBody n) { S := markEdges edges, St := fun _ _ => 0, outlinks := fun _ => 0 }

/-- Every endpoint of the 1-based edge list names one of the `n` entities. On
such lists the truncated subtraction in `markEdges` is the index arithmetic of
the source; outside them the source indexes out of range. -/
def InRange (n : Nat) (edges : List (Nat × Nat)) : Prop :=
  ∀ e ∈ edges, (1 ≤ e.1 ∧ e.1 ≤ n) ∧ (1 ≤ e.2 ∧ e.2 ≤ n)

instance (n : Nat) (edges : List (Nat × Nat)) : Decidable (InRange n edges) := by
  unfold InRange; infer_instance

/-- The value line 144–146 leaves in a cell holding `v` when the row has `c` out-links. -/
def normVal (n : Nat) (v : ℚ) (c : Nat) : ℚ :=
  if c = 0 then 1 / (n : ℚ) else if v ≠ 0 then v / (c : ℚ) else v

/-- Number of cells of row `i` among the first `m` that hold `1.0`. -/
def countOnes (M : Nat → Nat → ℚ) (i m : Nat) : Nat :=
  ((Finset.range m).filter (fun j => M i j = 1)).card

/-- Out-degree in the spec's words: the number of distinct destinations of
entity `i` (0-based) in the 1-based edge list. -/
def outdeg (edges : List (Nat × Nat)) (i : Nat) : Nat :=
  (((edges.filter (fun e => e.1 = i + 1)).map Prod.snd).dedup).length

/-! ## Damped system assembly (lines 154–171) -/

/-- Lines 155–161: `A[i][j] = (i == j ? 1.0 : 0.0) - d * St[i][j]`. -/
def assembleA (n : Nat) (damp : ℚ) (St : Nat → Nat → ℚ) : Nat → Nat → ℚ :=
  forLoop n (fun i A =>
    forLoop n (fun j A => setM A i j ((if i = j then 1 else 0) - damp * St i j)) A)
    (fun _ _ => 0)

/-- Lines 163–166: `b[i] = (1.0 - d) * (1.0 / n)`. -/
def assembleB (n : Nat) (damp : ℚ) : Nat → ℚ :=
  forLoop n (fun i b => Function.update b i ((1 - damp) * (1 / (n : ℚ)))) (fun _ => 0)

/-- Lines 168–171: `pageRank[i] = 1.0 / n`. -/
def initRank (n : Nat) : Nat → ℚ :=
  forLoop n (fun i p => Function.update p i (1 / (n : ℚ))) (fun _ => 0)

/-! ## Relaxation loop (lines 185–199) -/

/-- Lines 189–192: `temp3 += A[i][j] * pageRank[j]` for `j = 0 … n-1`. -/
def dotRow (n : Nat) (A : Nat → Nat → ℚ) (p : Nat → ℚ) (i : Nat) : ℚ :=
  forLoop n (fun j temp3 => temp3 + A i j * p j) 0

/-- Line 194: `shift = (1 / A[i][i]) * (b[i] - temp3)`. The diagonal of an
assembled system is positive (`Damped.A_diag_pos`), so the rational convention
`1 / 0 = 0` is never met there. -/
def shift (n : Nat) (A : Nat → Nat → ℚ) (b p : Nat → ℚ) (i : Nat) : ℚ :=
  (1 / A i i) * (b i - dotRow n A p i)

/-- Lines 188–197: the update of row `i` on the pair `(pageRank, error)`. -/
def rowUpdate (n : Nat) (A : Nat → Nat → ℚ) (b : Nat → ℚ) (i : Nat)
    (st : (Nat → ℚ) × ℚ) : (Nat → ℚ) × ℚ :=
  (Function.update st.1 i (st.1 i + shift n A b st.1 i), st.2 + |shift n A b st.1 i|)

/-- Lines 186–197: one pass, `error = 0.0` then the rows in index order. -/
def pass (n : Nat) (A : Nat → Nat → ℚ) (b p : Nat → ℚ) : (Nat → ℚ) × ℚ :=
  forLoop n (rowUpdate n A b) (p, 0)

/-- Lines 185–199: `do { pass; iterations++; } while (error >= 0.000001)`, with
fuel bounding the number of passes; the result is the final vector and the
iteration count. -/
def relaxLoop (n : Nat) (A : Nat → Nat → ℚ) (b : Nat → ℚ) :
    Nat → (Nat → ℚ) → Nat → Option ((Nat → ℚ) × Nat)
  | 0, _, _ => none
  | fuel + 1, p, iterations =>
    if (pass n A b p).2 ≥ 1 / 1000000 then
      relaxLoop n A b fuel (pass n A b p).1 (iterations + 1)
    else some ((pass n A b p).1, iterations + 1)

/-- Lines 108–199 of `main`: build, assemble, relax from the uniform vector. -/
def solve (n : Nat) (edges : List (Nat × Nat)) (damp : ℚ) (fuel : Nat) :
    Option ((Nat → ℚ) × Nat) :=
  relaxLoop n (assembleA n damp (build n edges).St) (assembleB n damp) fuel (initRank n) 0

/-- The score vector after `t` complete passes from `p`. -/
def afterPasses (n : Nat) (A : Nat → Nat → ℚ) (b : Nat → ℚ) (p : Nat → ℚ) : Nat → (Nat → ℚ)
  | 0 => p
  | t + 1 => (pass n A b (afterPasses n A b p t)).1

/-- Row `i` of the residual `b - A p`. -/
def residual (n : Nat) (A : Nat → Nat → ℚ) (b p : Nat → ℚ) (i : Nat) : ℚ :=
  b i - ∑ j in Finset.range n, A i j * p j

/-- What the relaxation proofs use of the assembled system: `S` is
row-stochastic on `[0, n)`, `A = I - damp * Sᵗ` and `b = (1 - damp) / n`. -/
structure Damped (n : Nat) (damp : ℚ) (S A : Nat → Nat → ℚ) (b : Nat → ℚ) : Prop where
  n_pos : 0 < n
  d_pos : 0 < damp
  d_lt : damp < 1
  S_nonneg : ∀ i j, 0 ≤ S i j
  S_row : ∀ i, i < n → ∑ j in Finset.range n, S i j = 1
  A_eq : ∀ i j, i < n → j < n → A i j = (if i = j then 1 else 0) - damp * S j i
  b_eq : ∀ i, i < n → b i = (1 - damp) / (n : ℚ)

/-! ## Ranking (lines 23–44) -/

/-- The function `swap`, on the parallel score and name arrays: the scores at
positions `x` and `y` are exchanged through `temp`, and so are the names. -/
def swap {α : Type} (st : (Nat → ℚ) × (Nat → α)) (x y : Nat) : (Nat → ℚ) × (Nat → α) :=
  (Function.update (Function.update st.1 x (st.1 y)) y (st.1 x),
   Function.update (Function.update st.2 x (st.2 y)) y (st.2 x))

/-- Lines 39–41: the body of the inner loop of `bubbleSort`. -/
def bubbleBody {α : Type} (j : Nat) (st : (Nat → ℚ) × (Nat → α)) : (Nat → ℚ) × (Nat → α) :=
  if st.1 j < st.1 (j + 1) then swap st j (j + 1) else st

/-- Lines 38–42: the inner loop `for (j = 0; j < n - i - 1; j++)`. -/
def bubbleInner {α : Type} (n i : Nat) (st : (Nat → ℚ) × (Nat → α)) : (Nat → ℚ) × (Nat → α) :=
  forLoop (n - i - 1) bubbleBody st

/-- The function `bubbleSort` on the score array `arr` and the name array `web`. -/
def bubbleSort {α : Type} (arr : Nat → ℚ) (web : Nat → α) (n : Nat) : (Nat → ℚ) × (Nat → α) :=
  forLoop (n - 1) (bubbleInner n) (arr, web)

/-- The first `n` (score, name) pairs of the parallel arrays, as a list. -/
def entries {α : Type} (st : (Nat → ℚ) × (Nat → α)) (n : Nat) : List (ℚ × α) :=
  (List.range n).map (fun k => (st.1 k, st.2 k))

/-- The tail from position `lo` on is in its final place: every such entry is
at most every entry before it. -/
def TailSorted (arr : Nat → ℚ) (n lo : Nat) : Prop :=
  ∀ a b, a < b → b < n → lo ≤ b → arr b ≤ arr a

/-! ## Edge records, report loop and loop state -/

/-- Lines 116–123 with the `fscanf` check: a record that does not parse
(`none`) ends `main` with "Error reading connections."; a record that parses
is stored by `S[temp1 - 1][temp2 - 1] = 1.0` with no check of its range. -/
def readEdges : List (Option (Nat × Nat)) → (Nat → Nat → ℚ) → Option (Nat → Nat → ℚ)
  | [], S => some S
  | none :: _, _ => none
  | some e :: rest, S => readEdges rest (setM S (e.1 - 1) (e.2 - 1) 1)

/-- Lines 210–212: the report loop `for (int i = 0; i < 10; i++)` prints the
rank `i + 1`, `pageRank[i]` and `websites[i]`; its bound is the constant 10. -/
def topTen {α : Type} (st : (Nat → ℚ) × (Nat → α)) : List (Nat × ℚ × α) :=
  forLoop 10 (fun i out => out ++ [(i + 1, st.1 i, st.2 i)]) []

/-- The indices of `pageRank` and `websites` read by the report loop. -/
def topTenReads : List Nat :=
  forLoop 10 (fun i acc => acc ++ [i]) []

/-- The variables the relaxation loop works on. -/
structure RelaxState where
  A : Nat → Nat → ℚ
  b : Nat → ℚ
  pageRank : Nat → ℚ
  error : ℚ

/-- Lines 188–197 on the whole state: the body assigns `pageRank[i]` and
`error` and nothing else. -/
def rowStep (n i : Nat) (s : RelaxState) : RelaxState :=
  { s with
    pageRank := (rowUpdate n s.A s.b i (s.pageRank, s.error)).1
    error := (rowUpdate n s.A s.b i (s.pageRank, s.error)).2 }

/-- The weight of row `i` once the first `k` rows of a pass are done: visited
rows count fully, the others by the damping factor. -/
def passWeight (damp : ℚ) (k i : Nat) : ℚ :=
  if i < k then 1 else damp

/-- A four-entity input on which a second run of the solver needs two passes. -/
def rerunEdges : List (Nat × Nat) :=
  [(1, 1), (1, 2), (1, 4), (2, 2), (3, 1), (3, 2), (4, 3)]

/-- The power `2 ^ e` for an integer exponent. -/
def pow2 (e : Int) : ℚ :=
  if 0 ≤ e then ((2 ^ e.toNat : Nat) : ℚ) else 1 / ((2 ^ (-e).toNat : Nat) : ℚ)

/-- The number `⌊log₂ n⌋` for `n ≥ 1` (and 0 for `n = 0`), by halving; the
first argument bounds the number of halvings. -/
def log2Aux : Nat → Nat → Nat
  | 0, _ => 0
  | fuel + 1, n => if 2 ≤ n then log2Aux fuel (n / 2) + 1 else 0

/-- The binary exponent `⌊log₂ a⌋` of a positive rational `a`: the difference
of the exponents of numerator and denominator, lowered by one when that power
of two exceeds `a`. -/
def binExp (a : ℚ) : Int :=
  if pow2 ((log2Aux a.num.natAbs a.num.natAbs : Int) - (log2Aux a.den a.den : Int)) ≤ a
  then (log2Aux a.num.natAbs a.num.natAbs : Int) - (log2Aux a.den a.den : Int)
  else (log2Aux a.num.natAbs a.num.natAbs : Int) - (log2Aux a.den a.den : Int) - 1

/-- The integer nearest to a non-negative rational, ties going to the even one. -/
def roundEven (q : ℚ) : Int :=
  if q - ((q.num / (q.den : Int) : Int) : ℚ) < 1 / 2 then q.num / (q.den : Int)
  else if 1 / 2 < q - ((q.num / (q.den : Int) : Int) : ℚ) then q.num / (q.den : Int) + 1
  else if (q.num / (q.den : Int)) % 2 = 0 then q.num / (q.den : Int)
  else q.num / (q.den : Int) + 1

/-- The binary64 value nearest to `x`: a 53-bit significand times a power of
two, ties to even. -/
def roundDouble (x : ℚ) : ℚ :=
  if x = 0 then 0
  else (if x < 0 then -1 else 1)
    * ((roundEven (|x| / pow2 (binExp |x| - 52)) : Int) : ℚ) * pow2 (binExp |x| - 52)

/-- Lines 142–149 with rounding: `1.0 / n` and `S[i][j] /= outlinks[i]`. -/
def normBodyR (rnd : ℚ → ℚ) (n i j : Nat) (s : BuildState) : BuildState :=
  let S1 : Nat → Nat → ℚ :=
    if s.outlinks i = 0 then setM s.S i j (rnd (1 / (n : ℚ)))
    else if s.S i j ≠ 0 then setM s.S i j (rnd (s.S i j / (s.outlinks i : ℚ)))
    else s.S
  { s with S := S1, St := setM s.St j i (S1 i j) }

/-- Lines 135–150 with rounding. -/
def rowBodyR (rnd : ℚ → ℚ) (n i : Nat) (s : BuildState) : BuildState :=
  forLoop n (normBodyR rnd n i) (forLoop n (countBody i) s)

/-- Lines 108–150 with rounding. -/
def buildR (rnd : ℚ → ℚ) (n : Nat) (edges : List (Nat × Nat)) : BuildState :=
  forLoop n (rowBodyR rnd n)
    { S := markEdges edges, St := fun _ _ => 0, outlinks := fun _ => 0 }

/-- Lines 155–161 with rounding: the product `d * St[i][j]`, then the
subtraction. -/
def assembleAR (rnd : ℚ → ℚ) (n : Nat) (damp : ℚ) (St : Nat → Nat → ℚ) : Nat → Nat → ℚ :=
  forLoop n (fun i A =>
    forLoop n (fun j A =>
      setM A i j (rnd ((if i = j then 1 else 0) - rnd (damp * St i j)))) A)
    (fun _ _ => 0)

/-- Lines 163–166 with rounding: `1.0 - d`, `1.0 / n`, then the product. -/
def assembleBR (rnd : ℚ → ℚ) (n : Nat) (damp : ℚ) : Nat → ℚ :=
  forLoop n (fun i b => Function.update b i (rnd (rnd (1 - damp) * rnd (1 / (n : ℚ)))))
    (fun _ => 0)

/-- Lines 168–171 with rounding. -/
def initRankR (rnd : ℚ → ℚ) (n : Nat) : Nat → ℚ :=
  forLoop n (fun i p => Function.update p i (rnd (1 / (n : ℚ)))) (fun _ => 0)

/-- Lines 189–192 with rounding: the product, then the addition to `temp3`. -/
def dotRowR (rnd : ℚ → ℚ) (n : Nat) (A : Nat → Nat → ℚ) (p : Nat → ℚ) (i : Nat) : ℚ :=
  forLoop n (fun j temp3 => rnd (temp3 + rnd (A i j * p j))) 0

/-- Line 194 with rounding: the quotient `1 / A[i][i]`, the difference
`b[i] - temp3`, then the product. -/
def shiftR (rnd : ℚ → ℚ) (n : Nat) (A : Nat → Nat → ℚ) (b p : Nat → ℚ) (i : Nat) : ℚ :=
  rnd (rnd (1 / A i i) * rnd (b i - dotRowR rnd n A p i))

/-- Lines 188–197 with rounding: `pageRank[i] += shift`, `error += fabs(shift)`. -/
def rowUpdateR (rnd : ℚ → ℚ) (n : Nat) (A : Nat → Nat → ℚ) (b : Nat → ℚ) (i : Nat)
    (st : (Nat → ℚ) × ℚ) : (Nat → ℚ) × ℚ :=
  (Function.update st.1 i (rnd (st.1 i + shiftR rnd n A b st.1 i)),
   rnd (st.2 + |shiftR rnd n A b st.1 i|))

/-- Lines 186–197 with rounding. -/
def passR (rnd : ℚ → ℚ) (n : Nat) (A : Nat → Nat → ℚ) (b p : Nat → ℚ) : (Nat → ℚ) × ℚ :=
  forLoop n (rowUpdateR rnd n A b) (p, 0)

/-- The residual of row `i` as lines 189–194 evaluate it: `b[i] - temp3`,
rounded. -/
def residualR (rnd : ℚ → ℚ) (n : Nat) (A : Nat → Nat → ℚ) (b p : Nat → ℚ) (i : Nat) : ℚ :=
  rnd (b i - dotRowR rnd n A p i)

/-! # Properties -/

theorem markEdges_foldl (edges : List (Nat × Nat)) (M : Nat → Nat → ℚ) (i j : Nat) :
    edges.foldl (fun S e => setM S (e.1 - 1) (e.2 - 1) 1) M i j =
      if ∃ e ∈ edges, e.1 - 1 = i ∧ e.2 - 1 = j then 1 else M i j := by
  induction edges generalizing M with
  | nil => simp
  | cons e es ih =>
    rw [List.foldl_cons, ih]
    by_cases h : ∃ e ∈ es, e.1 - 1 = i ∧ e.2 - 1 = j
    · have h2 : ∃ e1 ∈ e :: es, e1.1 - 1 = i ∧ e1.2 - 1 = j := by
        obtain ⟨x, hx, hx2⟩ := h
        exact ⟨x, List.mem_cons_of_mem _ hx, hx2⟩
      rw [if_pos h, if_pos h2]
    · rw [if_neg h]
      by_cases h3 : e.1 - 1 = i ∧ e.2 - 1 = j
      · have h2 : ∃ e1 ∈ e :: es, e1.1 - 1 = i ∧ e1.2 - 1 = j := ⟨e, List.mem_cons_self _ _, h3⟩
        rw [if_pos h2]
        obtain ⟨h4, h5⟩ := h3
        subst h4; subst h5
        simp [setM]
      · have h2 : ¬ ∃ e1 ∈ e :: es, e1.1 - 1 = i ∧ e1.2 - 1 = j := by
          rintro ⟨x, hx, hx2⟩
          rcases List.mem_cons.1 hx with rfl | hx
          · exact h3 hx2
          · exact h ⟨x, hx, hx2⟩
        rw [if_neg h2]
        unfold setM
        by_cases hi : i = e.1 - 1
        · subst hi
          have hj : j ≠ e.2 - 1 := fun hj => h3 ⟨rfl, hj.symm⟩
          simp [Function.update_noteq hj]
        · simp [Function.update_noteq hi]

theorem markEdges_apply (edges : List (Nat × Nat)) (i j : Nat) :
    markEdges edges i j = if ∃ e ∈ edges, e.1 - 1 = i ∧ e.2 - 1 = j then 1 else 0 := by
  unfold markEdges
  rw [markEdges_foldl]

theorem forLoop_countBody (i m : Nat) (s : BuildState) :
    forLoop m (countBody i) s =
      { s with outlinks := Function.update s.outlinks i (s.outlinks i + countOnes s.S i m) } := by
  induction m with
  | zero => simp [forLoop, countOnes]
  | succ m ih =>
    rw [forLoop, ih]
    unfold countBody
    by_cases h : s.S i m = 1
    · simp [h, countOnes, Finset.range_succ, Finset.filter_insert, add_assoc]
    · simp [h, countOnes, Finset.range_succ, Finset.filter_insert]

theorem forLoop_normBody (n i m : Nat) (s : BuildState) :
    forLoop m (normBody n i) s =
      { S := fun i' j => if i' = i ∧ j < m then normVal n (s.S i j) (s.outlinks i) else s.S i' j,
        St := fun j i' => if i' = i ∧ j < m then normVal n (s.S i j) (s.outlinks i) else s.St j i',
        outlinks := s.outlinks } := by
  induction m with
  | zero => simp [forLoop]
  | succ m ih =>
    rw [forLoop, ih]
    unfold normBody
    have hS : (fun i' j => if i' = i ∧ j < m + 1 then normVal n (s.S i j) (s.outlinks i)
          else s.S i' j) =
        (if s.outlinks i = 0 then
          setM (fun i' j => if i' = i ∧ j < m then normVal n (s.S i j) (s.outlinks i)
            else s.S i' j) i m (1 / (n : ℚ))
        else if s.S i m ≠ 0 then
          setM (fun i' j => if i' = i ∧ j < m then normVal n (s.S i j) (s.outlinks i)
            else s.S i' j) i m (s.S i m / (s.outlinks i : ℚ))
        else fun i' j => if i' = i ∧ j < m then normVal n (s.S i j) (s.outlinks i)
            else s.S i' j) := by
      funext i' j
      have hval : normVal n (s.S i m) (s.outlinks i) =
          if s.outlinks i = 0 then 1 / (n : ℚ)
          else if s.S i m ≠ 0 then s.S i m / (s.outlinks i : ℚ) else s.S i m := rfl
      have key : ∀ v : ℚ, v = normVal n (s.S i m) (s.outlinks i) →
          (if i' = i ∧ j < m + 1 then normVal n (s.S i j) (s.outlinks i) else s.S i' j) =
          setM (fun i' j => if i' = i ∧ j < m then normVal n (s.S i j) (s.outlinks i)
            else s.S i' j) i m v i' j := by
        intro v hv
        unfold setM
        by_cases hi : i' = i
        · subst hi
          rw [Function.update_same]
          by_cases hj : j = m
          · subst hj
            rw [Function.update_same, hv]
            simp
          · rw [Function.update_noteq hj]
            have h1 : j < m + 1 ↔ j < m := by omega
            simp only [h1]
        · rw [Function.update_noteq hi]
          simp [hi]
      by_cases h0 : s.outlinks i = 0
      · rw [if_pos h0]
        exact key _ (by rw [hval, if_pos h0])
      · rw [if_neg h0]
        by_cases h1 : s.S i m ≠ 0
        · rw [if_pos h1]
          exact key _ (by rw [hval, if_neg h0, if_pos h1])
        · rw [if_neg h1]
          have h2 := key (s.S i m) (by rw [hval, if_neg h0, if_neg h1])
          rw [h2]
          unfold setM
          by_cases hi : i' = i
          · subst hi
            rw [Function.update_same]
            by_cases hj : j = m
            · subst hj
              simp
            · rw [Function.update_noteq hj]
          · rw [Function.update_noteq hi]
    simp only [lt_self_iff_false, and_false, if_false]
    rw [← hS]
    simp only [BuildState.mk.injEq, true_and, and_true]
    funext j i'
    by_cases hj : j = m
    · subst hj
      by_cases hi : i' = i
      · subst hi; simp [setM]
      · simp [setM, Function.update_noteq hi, hi]
    · have h1 : j < m + 1 ↔ j < m := by omega
      simp [setM, Function.update_noteq hj, h1]

theorem rowBody_eq (n i : Nat) (s : BuildState) :
    rowBody n i s =
      { S := fun i' j => if i' = i ∧ j < n
          then normVal n (s.S i j) (s.outlinks i + countOnes s.S i n) else s.S i' j,
        St := fun j i' => if i' = i ∧ j < n
          then normVal n (s.S i j) (s.outlinks i + countOnes s.S i n) else s.St j i',
        outlinks := Function.update s.outlinks i (s.outlinks i + countOnes s.S i n) } := by
  unfold rowBody
  rw [forLoop_countBody, forLoop_normBody]
  simp

/-- Closed form of the builder state after the first `k` rows. -/
theorem forLoop_rowBody (n k : Nat) (M : Nat → Nat → ℚ) :
    forLoop k (rowBody n) { S := M, St := fun _ _ => 0, outlinks := fun _ => 0 } =
      { S := fun i j => if i < k ∧ j < n then normVal n (M i j) (countOnes M i n) else M i j,
        St := fun j i => if i < k ∧ j < n then normVal n (M i j) (countOnes M i n) else 0,
        outlinks := fun i => if i < k then countOnes M i n else 0 } := by
  induction k with
  | zero => simp [forLoop]
  | succ k ih =>
    rw [forLoop, ih, rowBody_eq]
    have hc : countOnes (fun i j => if i < k ∧ j < n then normVal n (M i j) (countOnes M i n)
        else M i j) k n = countOnes M k n := by
      simp [countOnes]
    simp only [hc, lt_self_iff_false, false_and, if_false, zero_add, BuildState.mk.injEq]
    refine ⟨?_, ?_, ?_⟩
    · funext i j
      by_cases hi : i = k
      · subst hi; simp
      · have h1 : i < k + 1 ↔ i < k := by omega
        simp [hi, h1]
    · funext j i
      by_cases hi : i = k
      · subst hi; simp
      · have h1 : i < k + 1 ↔ i < k := by omega
        simp [hi, h1]
    · funext i
      by_cases hi : i = k
      · subst hi; simp
      · have h1 : i < k + 1 ↔ i < k := by omega
        simp [Function.update_noteq hi, h1]

theorem build_S (n : Nat) (edges : List (Nat × Nat)) (i j : Nat) :
    (build n edges).S i j =
      if i < n ∧ j < n then normVal n (markEdges edges i j) (countOnes (markEdges edges) i n)
      else markEdges edges i j := by
  unfold build
  rw [forLoop_rowBody]

theorem build_St (n : Nat) (edges : List (Nat × Nat)) (i j : Nat) :
    (build n edges).St j i =
      if i < n ∧ j < n then normVal n (markEdges edges i j) (countOnes (markEdges edges) i n)
      else 0 := by
  unfold build
  rw [forLoop_rowBody]

theorem build_outlinks (n : Nat) (edges : List (Nat × Nat)) (i : Nat) :
    (build n edges).outlinks i = if i < n then countOnes (markEdges edges) i n else 0 := by
  unfold build
  rw [forLoop_rowBody]

/-! ### Marked cells, out-degree and row sums -/

theorem markEdges_inRange (n : Nat) (edges : List (Nat × Nat)) (hr : InRange n edges)
    (i j : Nat) : markEdges edges i j = if (i + 1, j + 1) ∈ edges then 1 else 0 := by
  rw [markEdges_apply]
  have h : (∃ e ∈ edges, e.1 - 1 = i ∧ e.2 - 1 = j) ↔ (i + 1, j + 1) ∈ edges := by
    constructor
    · rintro ⟨⟨a, b⟩, he, h1, h2⟩
      have := hr _ he
      simp only at this h1 h2
      have ha : a = i + 1 := by omega
      have hb : b = j + 1 := by omega
      subst ha; subst hb
      exact he
    · intro he
      exact ⟨(i + 1, j + 1), he, by simp⟩
  simp only [h]

theorem markEdges_zero_or_one (edges : List (Nat × Nat)) (i j : Nat) :
    markEdges edges i j = 0 ∨ markEdges edges i j = 1 := by
  rw [markEdges_apply]
  split_ifs
  · exact Or.inr rfl
  · exact Or.inl rfl

theorem countOnes_eq_outdeg (n : Nat) (edges : List (Nat × Nat)) (hr : InRange n edges)
    (i : Nat) : countOnes (markEdges edges) i n = outdeg edges i := by
  unfold countOnes outdeg
  rw [← List.card_toFinset]
  rw [← Finset.card_image_of_injective _ (add_left_injective 1)]
  congr 1
  ext x
  simp only [Finset.mem_image, Finset.mem_filter, Finset.mem_range, List.mem_toFinset,
    List.mem_map, List.mem_filter, decide_eq_true_eq]
  constructor
  · rintro ⟨j, ⟨_, hj⟩, rfl⟩
    rw [markEdges_inRange n edges hr] at hj
    by_cases h : (i + 1, j + 1) ∈ edges
    · exact ⟨(i + 1, j + 1), ⟨h, rfl⟩, rfl⟩
    · rw [if_neg h] at hj
      exact absurd hj (by norm_num)
  · rintro ⟨⟨a, b⟩, ⟨he, ha⟩, hb⟩
    simp only at ha hb
    subst ha; subst hb
    have := hr _ he
    simp only at this
    refine ⟨b - 1, ⟨by omega, ?_⟩, by omega⟩
    rw [markEdges_inRange n edges hr, if_pos]
    have h2 : b - 1 + 1 = b := by omega
    rw [h2]
    exact he

theorem outdeg_eq_zero_iff (edges : List (Nat × Nat)) (i : Nat) :
    outdeg edges i = 0 ↔ ¬ ∃ e ∈ edges, e.1 = i + 1 := by
  unfold outdeg
  rw [List.length_eq_zero, List.dedup_eq_nil, List.map_eq_nil_iff, List.filter_eq_nil_iff]
  simp only [decide_eq_true_eq]
  constructor
  · rintro h ⟨e, he, h2⟩
    exact h e he h2
  · intro h e he h2
    exact h ⟨e, he, h2⟩

theorem sum_markEdges_row (edges : List (Nat × Nat)) (i n : Nat) :
    ∑ j in Finset.range n, markEdges edges i j = (countOnes (markEdges edges) i n : ℚ) := by
  unfold countOnes
  rw [Finset.card_filter, Nat.cast_sum]
  refine Finset.sum_congr rfl ?_
  intro j _
  rcases markEdges_zero_or_one edges i j with h | h <;> simp [h]

theorem build_S_nonneg (n : Nat) (edges : List (Nat × Nat)) (i j : Nat) :
    0 ≤ (build n edges).S i j := by
  rw [build_S]
  unfold normVal
  rcases markEdges_zero_or_one edges i j with h | h <;> rw [h] <;> split_ifs <;> positivity

theorem build_S_row_sum (n : Nat) (edges : List (Nat × Nat)) (i : Nat) (hi : i < n) :
    ∑ j in Finset.range n, (build n edges).S i j = 1 := by
  have hn : (n : ℚ) ≠ 0 := by
    have : 0 < n := by omega
    exact_mod_cast this.ne'
  by_cases hc : countOnes (markEdges edges) i n = 0
  · have : ∀ j ∈ Finset.range n, (build n edges).S i j = 1 / (n : ℚ) := by
      intro j hj
      rw [build_S, if_pos ⟨hi, Finset.mem_range.1 hj⟩, normVal, if_pos hc]
    rw [Finset.sum_congr rfl this, Finset.sum_const, Finset.card_range]
    simp [hn]
  · have : ∀ j ∈ Finset.range n, (build n edges).S i j =
        markEdges edges i j / (countOnes (markEdges edges) i n : ℚ) := by
      intro j hj
      rw [build_S, if_pos ⟨hi, Finset.mem_range.1 hj⟩, normVal, if_neg hc]
      split_ifs with h
      · rfl
      · push_neg at h
        rw [h]; simp
    rw [Finset.sum_congr rfl this, ← Finset.sum_div, sum_markEdges_row]
    have hc2 : (countOnes (markEdges edges) i n : ℚ) ≠ 0 := by exact_mod_cast hc
    exact div_self hc2

theorem build_St_eq (n : Nat) (edges : List (Nat × Nat)) (i j : Nat) (hi : i < n) (hj : j < n) :
    (build n edges).St i j = (build n edges).S j i := by
  rw [build_St, build_S, if_pos ⟨hj, hi⟩, if_pos ⟨hj, hi⟩]

theorem build_S_inRange (n : Nat) (edges : List (Nat × Nat)) (hr : InRange n edges)
    (i j : Nat) (hi : i < n) (hj : j < n) :
    (build n edges).S i j =
      if ¬ ∃ e ∈ edges, e.1 = i + 1 then 1 / (n : ℚ)
      else if (i + 1, j + 1) ∈ edges then 1 / (outdeg edges i : ℚ) else 0 := by
  rw [build_S, if_pos ⟨hi, hj⟩, countOnes_eq_outdeg n edges hr, normVal,
    markEdges_inRange n edges hr]
  by_cases h0 : outdeg edges i = 0
  · rw [if_pos h0, if_pos ((outdeg_eq_zero_iff edges i).1 h0)]
  · rw [if_neg h0, if_neg (fun h => h0 ((outdeg_eq_zero_iff edges i).2 h))]
    by_cases he : (i + 1, j + 1) ∈ edges
    · simp [he]
    · simp [he]

/-- The marked matrix depends on the edge list only through its set of edges. -/
theorem markEdges_congr (l1 l2 : List (Nat × Nat)) (h : ∀ e, e ∈ l1 ↔ e ∈ l2) :
    markEdges l1 = markEdges l2 := by
  funext i j
  rw [markEdges_apply, markEdges_apply]
  have : (∃ e ∈ l1, e.1 - 1 = i ∧ e.2 - 1 = j) ↔ (∃ e ∈ l2, e.1 - 1 = i ∧ e.2 - 1 = j) := by
    constructor
    · rintro ⟨e, he, h2⟩; exact ⟨e, (h e).1 he, h2⟩
    · rintro ⟨e, he, h2⟩; exact ⟨e, (h e).2 he, h2⟩
  simp only [this]

theorem build_congr (n : Nat) (l1 l2 : List (Nat × Nat)) (h : ∀ e, e ∈ l1 ↔ e ∈ l2) :
    build n l1 = build n l2 := by
  unfold build
  rw [markEdges_congr l1 l2 h]

/-! ### Assembly -/

theorem forLoop_update {α : Type} (n : Nat) (g : Nat → α) (f0 : Nat → α) :
    forLoop n (fun i f => Function.update f i (g i)) f0 =
      fun i => if i < n then g i else f0 i := by
  induction n with
  | zero => simp [forLoop]
  | succ n ih =>
    rw [forLoop, ih]
    funext i
    by_cases hi : i = n
    · subst hi; simp
    · have h1 : i < n + 1 ↔ i < n := by omega
      simp [Function.update_noteq hi, h1]

theorem forLoop_setM_row (m i : Nat) (g : Nat → ℚ) (A0 : Nat → Nat → ℚ) :
    forLoop m (fun j A => setM A i j (g j)) A0 =
      fun i' j => if i' = i ∧ j < m then g j else A0 i' j := by
  induction m with
  | zero => simp [forLoop]
  | succ m ih =>
    rw [forLoop, ih]
    funext i' j
    unfold setM
    by_cases hi : i' = i
    · subst hi
      rw [Function.update_same]
      by_cases hj : j = m
      · subst hj; simp
      · have h1 : j < m + 1 ↔ j < m := by omega
        rw [Function.update_noteq hj]
        simp [h1]
    · rw [Function.update_noteq hi]
      simp [hi]

theorem forLoop_setM (n k : Nat) (g : Nat → Nat → ℚ) (A0 : Nat → Nat → ℚ) :
    forLoop k (fun i A => forLoop n (fun j A => setM A i j (g i j)) A) A0 =
      fun i j => if i < k ∧ j < n then g i j else A0 i j := by
  induction k with
  | zero => simp [forLoop]
  | succ k ih =>
    rw [forLoop, ih, forLoop_setM_row]
    funext i j
    by_cases hi : i = k
    · subst hi; simp
    · have h1 : i < k + 1 ↔ i < k := by omega
      simp [hi, h1]

theorem assembleA_apply (n : Nat) (damp : ℚ) (St : Nat → Nat → ℚ) (i j : Nat)
    (hi : i < n) (hj : j < n) :
    assembleA n damp St i j = (if i = j then 1 else 0) - damp * St i j := by
  unfold assembleA
  rw [forLoop_setM n n (fun i j => (if i = j then 1 else 0) - damp * St i j)]
  simp [hi, hj]

theorem assembleB_apply (n : Nat) (damp : ℚ) (i : Nat) (hi : i < n) :
    assembleB n damp i = (1 - damp) / (n : ℚ) := by
  unfold assembleB
  rw [forLoop_update n (fun _ => (1 - damp) * (1 / (n : ℚ)))]
  simp [hi, div_eq_mul_inv]

theorem initRank_apply (n : Nat) (i : Nat) (hi : i < n) : initRank n i = 1 / (n : ℚ) := by
  unfold initRank
  rw [forLoop_update n (fun _ => 1 / (n : ℚ))]
  simp [hi]

theorem damped_build (n : Nat) (edges : List (Nat × Nat)) (damp : ℚ) (hn : 1 ≤ n)
    (h0 : 0 < damp) (h1 : damp < 1) :
    Damped n damp (build n edges).S (assembleA n damp (build n edges).St) (assembleB n damp) where
  n_pos := hn
  d_pos := h0
  d_lt := h1
  S_nonneg := build_S_nonneg n edges
  S_row := build_S_row_sum n edges
  A_eq := by
    intro i j hi hj
    rw [assembleA_apply n damp _ i j hi hj, build_St_eq n edges i j hi hj]
  b_eq := assembleB_apply n damp

/-! ### The row update -/

theorem dotRow_eq_sum (n : Nat) (A : Nat → Nat → ℚ) (p : Nat → ℚ) (i : Nat) :
    dotRow n A p i = ∑ j in Finset.range n, A i j * p j := by
  unfold dotRow
  induction n with
  | zero => simp [forLoop]
  | succ n ih => rw [forLoop, ih, Finset.sum_range_succ]

theorem shift_eq (n : Nat) (A : Nat → Nat → ℚ) (b p : Nat → ℚ) (i : Nat) :
    shift n A b p i = (1 / A i i) * residual n A b p i := by
  unfold shift residual
  rw [dotRow_eq_sum]

/-- Changing `p[k]` by `y` changes row `i` of the residual by `- A[i][k] * y`. -/
theorem residual_update (n : Nat) (A : Nat → Nat → ℚ) (b p : Nat → ℚ) (k : Nat) (hk : k < n)
    (y : ℚ) (i : Nat) :
    residual n A b (Function.update p k (p k + y)) i = residual n A b p i - A i k * y := by
  unfold residual
  have h : ∑ j in Finset.range n, A i j * Function.update p k (p k + y) j =
      ∑ j in Finset.range n, (A i j * p j + if j = k then A i k * y else 0) := by
    refine Finset.sum_congr rfl ?_
    intro j _
    by_cases hj : j = k
    · subst hj; simp; ring
    · simp [Function.update_noteq hj, hj]
  rw [h, Finset.sum_add_distrib, Finset.sum_ite_eq' (Finset.range n) k]
  simp [hk]
  ring

/-! ### Facts about the damped system -/

theorem Damped.S_le_one {n : Nat} {damp : ℚ} {S A : Nat → Nat → ℚ} {b : Nat → ℚ}
    (hD : Damped n damp S A b) (i j : Nat) (hi : i < n) (hj : j < n) : S i j ≤ 1 := by
  rw [← hD.S_row i hi]
  exact Finset.single_le_sum (f := fun j => S i j) (fun j _ => hD.S_nonneg i j)
    (Finset.mem_range.2 hj)

theorem Damped.A_diag {n : Nat} {damp : ℚ} {S A : Nat → Nat → ℚ} {b : Nat → ℚ}
    (hD : Damped n damp S A b) (i : Nat) (hi : i < n) : A i i = 1 - damp * S i i := by
  rw [hD.A_eq i i hi hi, if_pos rfl]

theorem Damped.A_diag_ge {n : Nat} {damp : ℚ} {S A : Nat → Nat → ℚ} {b : Nat → ℚ}
    (hD : Damped n damp S A b) (i : Nat) (hi : i < n) : 1 - damp ≤ A i i := by
  rw [hD.A_diag i hi]
  have h1 := hD.S_le_one i i hi hi
  have h2 := hD.d_pos
  nlinarith

theorem Damped.A_diag_pos {n : Nat} {damp : ℚ} {S A : Nat → Nat → ℚ} {b : Nat → ℚ}
    (hD : Damped n damp S A b) (i : Nat) (hi : i < n) : 0 < A i i := by
  have h1 := hD.A_diag_ge i hi
  have h2 := hD.d_lt
  linarith

theorem Damped.A_off {n : Nat} {damp : ℚ} {S A : Nat → Nat → ℚ} {b : Nat → ℚ}
    (hD : Damped n damp S A b) (i j : Nat) (hi : i < n) (hj : j < n) (hij : i ≠ j) :
    A i j = - (damp * S j i) := by
  rw [hD.A_eq i j hi hj, if_neg hij, zero_sub]

/-- The residual of row `k` is `A[k][k]` times its shift. -/
theorem Damped.residual_eq_shift {n : Nat} {damp : ℚ} {S A : Nat → Nat → ℚ} {b : Nat → ℚ}
    (hD : Damped n damp S A b) (p : Nat → ℚ) (k : Nat) (hk : k < n) :
    residual n A b p k = A k k * shift n A b p k := by
  have h := (hD.A_diag_pos k hk).ne'
  rw [shift_eq]
  field_simp

/-- Effect of the update of row `k` on the absolute residual of row `i`. -/
theorem Damped.abs_residual_step {n : Nat} {damp : ℚ} {S A : Nat → Nat → ℚ} {b : Nat → ℚ}
    (hD : Damped n damp S A b) (p : Nat → ℚ) (k : Nat) (hk : k < n) (i : Nat) (hi : i < n) :
    |residual n A b (Function.update p k (p k + shift n A b p k)) i| ≤
      |residual n A b p i| + damp * S k i * |shift n A b p k|
        - (if i = k then |shift n A b p k| else 0) := by
  rw [residual_update n A b p k hk]
  by_cases hik : i = k
  · subst hik
    rw [if_pos rfl, hD.residual_eq_shift p i hi, sub_self, abs_zero, abs_mul,
      abs_of_pos (hD.A_diag_pos i hi), hD.A_diag i hi]
    apply le_of_eq
    ring
  · rw [if_neg hik, sub_zero, hD.A_off i k hi hk hik]
    have h1 : residual n A b p i - -(damp * S k i) * shift n A b p k =
        residual n A b p i + damp * S k i * shift n A b p k := by ring
    rw [h1]
    refine (abs_add _ _).trans ?_
    rw [abs_mul, abs_of_nonneg (mul_nonneg hD.d_pos.le (hD.S_nonneg k i))]

/-- Row `k` has zero residual right after its own update. -/
theorem Damped.residual_self {n : Nat} {damp : ℚ} {S A : Nat → Nat → ℚ} {b : Nat → ℚ}
    (hD : Damped n damp S A b) (p : Nat → ℚ) (k : Nat) (hk : k < n) :
    residual n A b (Function.update p k (p k + shift n A b p k)) k = 0 := by
  rw [residual_update n A b p k hk, hD.residual_eq_shift p k hk, sub_self]

/-- One row update lowers the total absolute residual by `(1 - damp) * |shift|`. -/
theorem Damped.total_residual_step {n : Nat} {damp : ℚ} {S A : Nat → Nat → ℚ} {b : Nat → ℚ}
    (hD : Damped n damp S A b) (p : Nat → ℚ) (k : Nat) (hk : k < n) :
    ∑ i in Finset.range n, |residual n A b (Function.update p k (p k + shift n A b p k)) i|
      + (1 - damp) * |shift n A b p k| ≤ ∑ i in Finset.range n, |residual n A b p i| := by
  have h : ∑ i in Finset.range n,
      |residual n A b (Function.update p k (p k + shift n A b p k)) i| ≤
      ∑ i in Finset.range n, (|residual n A b p i| + damp * S k i * |shift n A b p k|
        - (if i = k then |shift n A b p k| else 0)) :=
    Finset.sum_le_sum (fun i hi => hD.abs_residual_step p k hk i (Finset.mem_range.1 hi))
  rw [Finset.sum_sub_distrib, Finset.sum_add_distrib, Finset.sum_ite_eq' (Finset.range n) k,
    if_pos (Finset.mem_range.2 hk)] at h
  have h2 : ∑ i in Finset.range n, damp * S k i * |shift n A b p k| =
      damp * |shift n A b p k| := by
    rw [← Finset.sum_mul, ← Finset.mul_sum, hD.S_row k hk, mul_one]
  rw [h2] at h
  linarith

/-- One row update: the absolute residuals of the rows already visited grow by
at most `damp * |shift|`. -/
theorem Damped.visited_residual_step {n : Nat} {damp : ℚ} {S A : Nat → Nat → ℚ} {b : Nat → ℚ}
    (hD : Damped n damp S A b) (p : Nat → ℚ) (k : Nat) (hk : k < n) :
    ∑ i in Finset.range (k + 1),
        |residual n A b (Function.update p k (p k + shift n A b p k)) i| ≤
      ∑ i in Finset.range k, |residual n A b p i| + damp * |shift n A b p k| := by
  rw [Finset.sum_range_succ, hD.residual_self p k hk, abs_zero, add_zero]
  have h : ∑ i in Finset.range k,
      |residual n A b (Function.update p k (p k + shift n A b p k)) i| ≤
      ∑ i in Finset.range k, (|residual n A b p i| + damp * S k i * |shift n A b p k|) := by
    refine Finset.sum_le_sum (fun i hi => ?_)
    have hik : i < k := Finset.mem_range.1 hi
    have := hD.abs_residual_step p k hk i (by omega)
    rw [if_neg (by omega), sub_zero] at this
    exact this
  rw [Finset.sum_add_distrib] at h
  have h2 : ∑ i in Finset.range k, damp * S k i * |shift n A b p k| ≤
      damp * |shift n A b p k| := by
    rw [← Finset.sum_mul, ← Finset.mul_sum]
    have h3 : ∑ i in Finset.range k, S k i ≤ 1 := by
      rw [← hD.S_row k hk]
      exact Finset.sum_le_sum_of_subset_of_nonneg
        (Finset.range_subset.2 hk.le) (fun i _ _ => hD.S_nonneg k i)
    have h4 : 0 ≤ damp * |shift n A b p k| := mul_nonneg hD.d_pos.le (abs_nonneg _)
    calc (damp * ∑ i in Finset.range k, S k i) * |shift n A b p k|
        = (damp * |shift n A b p k|) * ∑ i in Finset.range k, S k i := by ring
      _ ≤ (damp * |shift n A b p k|) * 1 := mul_le_mul_of_nonneg_left h3 h4
      _ = damp * |shift n A b p k| := mul_one _
  linarith

/-! ### One pass -/

theorem rowUpdate_fst (n : Nat) (A : Nat → Nat → ℚ) (b : Nat → ℚ) (i : Nat)
    (st : (Nat → ℚ) × ℚ) :
    (rowUpdate n A b i st).1 = Function.update st.1 i (st.1 i + shift n A b st.1 i) := rfl

theorem rowUpdate_snd (n : Nat) (A : Nat → Nat → ℚ) (b : Nat → ℚ) (i : Nat)
    (st : (Nat → ℚ) × ℚ) :
    (rowUpdate n A b i st).2 = st.2 + |shift n A b st.1 i| := rfl

theorem forLoop_rowUpdate_error_nonneg (n : Nat) (A : Nat → Nat → ℚ) (b : Nat → ℚ)
    (k : Nat) (st : (Nat → ℚ) × ℚ) (h : 0 ≤ st.2) :
    0 ≤ (forLoop k (rowUpdate n A b) st).2 := by
  induction k with
  | zero => exact h
  | succ k ih =>
    rw [forLoop, rowUpdate_snd]
    exact add_nonneg ih (abs_nonneg _)

theorem pass_error_nonneg (n : Nat) (A : Nat → Nat → ℚ) (b p : Nat → ℚ) :
    0 ≤ (pass n A b p).2 :=
  forLoop_rowUpdate_error_nonneg n A b n (p, 0) le_rfl

/-- After the first `k` rows of a pass the visited rows have total absolute
residual at most `damp * error`. -/
theorem Damped.visited_residual_le {n : Nat} {damp : ℚ} {S A : Nat → Nat → ℚ} {b : Nat → ℚ}
    (hD : Damped n damp S A b) (p : Nat → ℚ) (k : Nat) (hk : k ≤ n) :
    ∑ i in Finset.range k, |residual n A b (forLoop k (rowUpdate n A b) (p, 0)).1 i| ≤
      damp * (forLoop k (rowUpdate n A b) (p, 0)).2 := by
  induction k with
  | zero => simp [forLoop]
  | succ k ih =>
    have ih := ih (by omega)
    rw [forLoop, rowUpdate_fst, rowUpdate_snd]
    have h := hD.visited_residual_step (forLoop k (rowUpdate n A b) (p, 0)).1 k (by omega)
    rw [mul_add]
    linarith

/-- During a pass the total absolute residual plus `(1 - damp) * error` never
exceeds the total absolute residual at the start of the pass. -/
theorem Damped.total_residual_le {n : Nat} {damp : ℚ} {S A : Nat → Nat → ℚ} {b : Nat → ℚ}
    (hD : Damped n damp S A b) (p : Nat → ℚ) (k : Nat) (hk : k ≤ n) :
    ∑ i in Finset.range n, |residual n A b (forLoop k (rowUpdate n A b) (p, 0)).1 i|
      + (1 - damp) * (forLoop k (rowUpdate n A b) (p, 0)).2 ≤
      ∑ i in Finset.range n, |residual n A b p i| := by
  induction k with
  | zero => simp [forLoop]
  | succ k ih =>
    have ih := ih (by omega)
    rw [forLoop, rowUpdate_fst, rowUpdate_snd]
    have h := hD.total_residual_step (forLoop k (rowUpdate n A b) (p, 0)).1 k (by omega)
    rw [mul_add]
    linarith

theorem Damped.pass_residual_le {n : Nat} {damp : ℚ} {S A : Nat → Nat → ℚ} {b : Nat → ℚ}
    (hD : Damped n damp S A b) (p : Nat → ℚ) :
    ∑ i in Finset.range n, |residual n A b (pass n A b p).1 i| ≤ damp * (pass n A b p).2 :=
  hD.visited_residual_le p n le_rfl

theorem Damped.pass_decrease {n : Nat} {damp : ℚ} {S A : Nat → Nat → ℚ} {b : Nat → ℚ}
    (hD : Damped n damp S A b) (p : Nat → ℚ) :
    ∑ i in Finset.range n, |residual n A b (pass n A b p).1 i|
      + (1 - damp) * (pass n A b p).2 ≤ ∑ i in Finset.range n, |residual n A b p i| :=
  hD.total_residual_le p n le_rfl

/-! ### Positivity of the scores -/

theorem Damped.b_pos {n : Nat} {damp : ℚ} {S A : Nat → Nat → ℚ} {b : Nat → ℚ}
    (hD : Damped n damp S A b) (i : Nat) (hi : i < n) : 0 < b i := by
  rw [hD.b_eq i hi]
  have h1 : (0 : ℚ) < n := by exact_mod_cast hD.n_pos
  have h2 : 0 < 1 - damp := by linarith [hD.d_lt]
  positivity

/-- The new value of `p[k]` is positive when the current entries are. -/
theorem Damped.update_pos {n : Nat} {damp : ℚ} {S A : Nat → Nat → ℚ} {b : Nat → ℚ}
    (hD : Damped n damp S A b) (p : Nat → ℚ) (hp : ∀ j, j < n → 0 < p j) (k : Nat) (hk : k < n) :
    0 < p k + shift n A b p k := by
  have hA := hD.A_diag_pos k hk
  have hsum : ∑ j in Finset.range n, A k j * p j =
      p k - damp * ∑ j in Finset.range n, S j k * p j := by
    have h1 : ∑ j in Finset.range n, A k j * p j =
        ∑ j in Finset.range n, ((if j = k then p k else 0) - damp * (S j k * p j)) := by
      refine Finset.sum_congr rfl (fun j hj => ?_)
      rw [hD.A_eq k j hk (Finset.mem_range.1 hj)]
      by_cases h : k = j
      · subst h; simp; ring
      · have h' : ¬ j = k := fun e => h e.symm
        simp [h, h']; ring
    rw [h1, Finset.sum_sub_distrib, Finset.sum_ite_eq' (Finset.range n) k,
      if_pos (Finset.mem_range.2 hk), Finset.mul_sum]
  have hT : S k k * p k ≤ ∑ j in Finset.range n, S j k * p j :=
    Finset.single_le_sum (f := fun j => S j k * p j)
      (fun j hj => mul_nonneg (hD.S_nonneg j k) (hp j (Finset.mem_range.1 hj)).le)
      (Finset.mem_range.2 hk)
  have hb := hD.b_pos k hk
  have key : A k k * (p k + shift n A b p k) =
      b k + damp * (∑ j in Finset.range n, S j k * p j - S k k * p k) := by
    rw [mul_add, ← hD.residual_eq_shift p k hk, residual, hsum, hD.A_diag k hk]
    ring
  have hpos : 0 < A k k * (p k + shift n A b p k) := by
    rw [key]
    have := mul_nonneg hD.d_pos.le (sub_nonneg.2 hT)
    linarith
  exact (mul_pos_iff_of_pos_left hA).1 hpos

theorem Damped.forLoop_rowUpdate_pos {n : Nat} {damp : ℚ} {S A : Nat → Nat → ℚ} {b : Nat → ℚ}
    (hD : Damped n damp S A b) (st : (Nat → ℚ) × ℚ) (hp : ∀ j, j < n → 0 < st.1 j)
    (k : Nat) (hk : k ≤ n) :
    ∀ j, j < n → 0 < (forLoop k (rowUpdate n A b) st).1 j := by
  induction k with
  | zero => exact hp
  | succ k ih =>
    have ih := ih (by omega)
    intro j hj
    rw [forLoop, rowUpdate_fst]
    by_cases h : j = k
    · subst h
      rw [Function.update_same]
      exact hD.update_pos _ ih j hj
    · rw [Function.update_noteq h]
      exact ih j hj

theorem Damped.pass_pos {n : Nat} {damp : ℚ} {S A : Nat → Nat → ℚ} {b : Nat → ℚ}
    (hD : Damped n damp S A b) (p : Nat → ℚ) (hp : ∀ j, j < n → 0 < p j) :
    ∀ j, j < n → 0 < (pass n A b p).1 j :=
  hD.forLoop_rowUpdate_pos (p, 0) hp n le_rfl

theorem Damped.afterPasses_pos {n : Nat} {damp : ℚ} {S A : Nat → Nat → ℚ} {b : Nat → ℚ}
    (hD : Damped n damp S A b) (p : Nat → ℚ) (hp : ∀ j, j < n → 0 < p j) (t : Nat) :
    ∀ j, j < n → 0 < afterPasses n A b p t j := by
  induction t with
  | zero => exact hp
  | succ t ih => exact hD.pass_pos _ ih

theorem initRank_pos (n : Nat) (j : Nat) (hj : j < n) : 0 < initRank n j := by
  rw [initRank_apply n j hj]
  have : (0 : ℚ) < n := by exact_mod_cast (by omega : 0 < n)
  positivity

/-! ### The `do … while` loop -/

/-- A result of the loop is the outcome of a pass whose error is below the
tolerance, reached after whole passes from the start vector. -/
theorem relaxLoop_some (n : Nat) (A : Nat → Nat → ℚ) (b : Nat → ℚ) (fuel : Nat)
    (p : Nat → ℚ) (it : Nat) (q : Nat → ℚ) (it' : Nat)
    (h : relaxLoop n A b fuel p it = some (q, it')) :
    ∃ t, it' = it + t + 1 ∧ t < fuel ∧ q = afterPasses n A b p (t + 1) ∧
      (pass n A b (afterPasses n A b p t)).2 < 1 / 1000000 ∧
      ∀ s, s < t → 1 / 1000000 ≤ (pass n A b (afterPasses n A b p s)).2 := by
  induction fuel generalizing p it with
  | zero => simp [relaxLoop] at h
  | succ fuel ih =>
    rw [relaxLoop] at h
    by_cases hc : (pass n A b p).2 ≥ 1 / 1000000
    · rw [if_pos hc] at h
      obtain ⟨t, h1, h2, h3, h4, h5⟩ := ih _ _ h
      have hshift : ∀ s, afterPasses n A b (pass n A b p).1 s = afterPasses n A b p (s + 1) := by
        intro s
        induction s with
        | zero => rfl
        | succ s ihs => rw [afterPasses, ihs]; rfl
      refine ⟨t + 1, by omega, by omega, ?_, ?_, ?_⟩
      · rw [h3, hshift]
      · rw [← hshift]; exact h4
      · intro s hs
        cases s with
        | zero => exact hc
        | succ s => rw [← hshift]; exact h5 s (by omega)
    · rw [if_neg hc] at h
      simp only [Option.some.injEq, Prod.mk.injEq] at h
      refine ⟨0, by omega, by omega, h.1.symm, lt_of_not_ge hc, ?_⟩
      intro s hs
      omega

/-- Enough fuel makes the loop return. -/
theorem Damped.relaxLoop_isSome {n : Nat} {damp : ℚ} {S A : Nat → Nat → ℚ} {b : Nat → ℚ}
    (hD : Damped n damp S A b) (fuel : Nat) (p : Nat → ℚ) (it : Nat)
    (h : ∑ i in Finset.range n, |residual n A b p i| < fuel * ((1 - damp) * (1 / 1000000))) :
    (relaxLoop n A b fuel p it).isSome = true := by
  induction fuel generalizing p it with
  | zero =>
    have h0 : 0 ≤ ∑ i in Finset.range n, |residual n A b p i| :=
      Finset.sum_nonneg (fun i _ => abs_nonneg _)
    simp at h
    linarith
  | succ fuel ih =>
    rw [relaxLoop]
    by_cases hc : (pass n A b p).2 ≥ 1 / 1000000
    · rw [if_pos hc]
      apply ih
      have h1 := hD.pass_decrease p
      have h2 : 0 < 1 - damp := by linarith [hD.d_lt]
      have h3 : (1 - damp) * (1 / 1000000) ≤ (1 - damp) * (pass n A b p).2 :=
        mul_le_mul_of_nonneg_left hc h2.le
      push_cast at h
      linarith
    · rw [if_neg hc]
      rfl

theorem Damped.relaxLoop_terminates {n : Nat} {damp : ℚ} {S A : Nat → Nat → ℚ} {b : Nat → ℚ}
    (hD : Damped n damp S A b) (p : Nat → ℚ) (it : Nat) :
    ∃ fuel, (relaxLoop n A b fuel p it).isSome = true := by
  have h2 : 0 < (1 - damp) * (1 / 1000000) := by
    have : 0 < 1 - damp := by linarith [hD.d_lt]
    positivity
  obtain ⟨fuel, hf⟩ := exists_nat_gt
    ((∑ i in Finset.range n, |residual n A b p i|) / ((1 - damp) * (1 / 1000000)))
  refine ⟨fuel, hD.relaxLoop_isSome fuel p it ?_⟩
  rwa [div_lt_iff₀ h2] at hf

/-- More fuel does not change a result already obtained. -/
theorem relaxLoop_mono (n : Nat) (A : Nat → Nat → ℚ) (b : Nat → ℚ) (fuel : Nat)
    (p : Nat → ℚ) (it : Nat) (r : (Nat → ℚ) × Nat)
    (h : relaxLoop n A b fuel p it = some r) (fuel' : Nat) (hf : fuel ≤ fuel') :
    relaxLoop n A b fuel' p it = some r := by
  induction fuel generalizing p it fuel' with
  | zero => simp [relaxLoop] at h
  | succ fuel ih =>
    cases fuel' with
    | zero => omega
    | succ fuel' =>
      rw [relaxLoop] at h ⊢
      by_cases hc : (pass n A b p).2 ≥ 1 / 1000000
      · rw [if_pos hc] at h ⊢
        exact ih _ _ h fuel' (by omega)
      · rw [if_neg hc] at h ⊢
        exact h

/-- The residuals of any vector sum to `(1 - damp) * (1 - Σ p)`. -/
theorem Damped.sum_residual {n : Nat} {damp : ℚ} {S A : Nat → Nat → ℚ} {b : Nat → ℚ}
    (hD : Damped n damp S A b) (p : Nat → ℚ) :
    ∑ i in Finset.range n, residual n A b p i =
      (1 - damp) * (1 - ∑ i in Finset.range n, p i) := by
  have hn : (n : ℚ) ≠ 0 := by exact_mod_cast hD.n_pos.ne'
  unfold residual
  rw [Finset.sum_sub_distrib]
  have hb : ∑ i in Finset.range n, b i = 1 - damp := by
    rw [Finset.sum_congr rfl (fun i hi => hD.b_eq i (Finset.mem_range.1 hi)),
      Finset.sum_const, Finset.card_range]
    simp
    field_simp
  have hA : ∑ i in Finset.range n, ∑ j in Finset.range n, A i j * p j =
      (1 - damp) * ∑ j in Finset.range n, p j := by
    rw [Finset.sum_comm, Finset.mul_sum]
    refine Finset.sum_congr rfl (fun j hj => ?_)
    have hj' := Finset.mem_range.1 hj
    have h1 : ∑ i in Finset.range n, A i j * p j =
        ∑ i in Finset.range n, ((if i = j then p j else 0) - damp * p j * S j i) := by
      refine Finset.sum_congr rfl (fun i hi => ?_)
      rw [hD.A_eq i j (Finset.mem_range.1 hi) hj']
      by_cases h : i = j
      · simp [h]; ring
      · simp [h]; ring
    rw [h1, Finset.sum_sub_distrib, Finset.sum_ite_eq' (Finset.range n) j, if_pos hj,
      ← Finset.mul_sum, hD.S_row j hj']
    ring
  rw [hb, hA]
  ring

/-! ### The returned vector -/

/-- The vector the loop returns has total absolute residual below the tolerance. -/
theorem Damped.relaxLoop_total_residual_lt {n : Nat} {damp : ℚ} {S A : Nat → Nat → ℚ}
    {b : Nat → ℚ} (hD : Damped n damp S A b) (fuel : Nat) (p0 : Nat → ℚ) (it0 : Nat)
    (p : Nat → ℚ) (it : Nat) (h : relaxLoop n A b fuel p0 it0 = some (p, it)) :
    ∑ i in Finset.range n, |residual n A b p i| < 1 / 1000000 := by
  obtain ⟨t, _, _, hq, herr, _⟩ := relaxLoop_some n A b fuel p0 it0 p it h
  have h2 := hD.pass_residual_le (afterPasses n A b p0 t)
  have h3 := pass_error_nonneg n A b (afterPasses n A b p0 t)
  rw [hq, afterPasses]
  have h5 : damp * (pass n A b (afterPasses n A b p0 t)).2 ≤
      (pass n A b (afterPasses n A b p0 t)).2 := by
    have := hD.d_lt
    nlinarith
  linarith

theorem Damped.relaxLoop_residual_lt {n : Nat} {damp : ℚ} {S A : Nat → Nat → ℚ}
    {b : Nat → ℚ} (hD : Damped n damp S A b) (fuel : Nat) (p0 : Nat → ℚ) (it0 : Nat)
    (p : Nat → ℚ) (it : Nat) (h : relaxLoop n A b fuel p0 it0 = some (p, it))
    (i : Nat) (hi : i < n) : |residual n A b p i| < 1 / 1000000 := by
  have h4 : |residual n A b p i| ≤ ∑ i in Finset.range n, |residual n A b p i| :=
    Finset.single_le_sum (f := fun i => |residual n A b p i|)
      (fun i _ => abs_nonneg _) (Finset.mem_range.2 hi)
  exact lt_of_le_of_lt h4 (hD.relaxLoop_total_residual_lt fuel p0 it0 p it h)

theorem Damped.relaxLoop_sum_near_one {n : Nat} {damp : ℚ} {S A : Nat → Nat → ℚ}
    {b : Nat → ℚ} (hD : Damped n damp S A b) (fuel : Nat) (p0 : Nat → ℚ) (it0 : Nat)
    (p : Nat → ℚ) (it : Nat) (h : relaxLoop n A b fuel p0 it0 = some (p, it)) :
    |∑ i in Finset.range n, p i - 1| < (1 / 1000000) / (1 - damp) := by
  have h1 := hD.relaxLoop_total_residual_lt fuel p0 it0 p it h
  have h4 := hD.sum_residual p
  have h5 : |∑ i in Finset.range n, residual n A b p i| ≤
      ∑ i in Finset.range n, |residual n A b p i| :=
    Finset.abs_sum_le_sum_abs _ _
  have hd : 0 < 1 - damp := by linarith [hD.d_lt]
  rw [h4, abs_mul, abs_of_pos hd, abs_sub_comm] at h5
  rw [lt_div_iff₀ hd]
  linarith

theorem Damped.relaxLoop_pos {n : Nat} {damp : ℚ} {S A : Nat → Nat → ℚ}
    {b : Nat → ℚ} (hD : Damped n damp S A b) (fuel : Nat) (p0 : Nat → ℚ)
    (hp : ∀ j, j < n → 0 < p0 j) (it0 : Nat)
    (p : Nat → ℚ) (it : Nat) (h : relaxLoop n A b fuel p0 it0 = some (p, it))
    (i : Nat) (hi : i < n) : 0 < p i := by
  obtain ⟨t, _, _, hq, _, _⟩ := relaxLoop_some n A b fuel p0 it0 p it h
  rw [hq]
  exact hD.afterPasses_pos p0 hp (t + 1) i hi

/-! ### bubbleSort: order -/

theorem swap_fst_apply {α : Type} (st : (Nat → ℚ) × (Nat → α)) (j a : Nat) :
    (swap st j (j + 1)).1 a =
      if a = j then st.1 (j + 1) else if a = j + 1 then st.1 j else st.1 a := by
  unfold swap
  simp only
  by_cases h1 : a = j + 1
  · subst h1; simp
  · rw [Function.update_noteq h1]
    by_cases h2 : a = j
    · subst h2; simp
    · rw [Function.update_noteq h2]; simp [h1, h2]

theorem swap_snd_apply {α : Type} (st : (Nat → ℚ) × (Nat → α)) (j a : Nat) :
    (swap st j (j + 1)).2 a =
      if a = j then st.2 (j + 1) else if a = j + 1 then st.2 j else st.2 a := by
  unfold swap
  simp only
  by_cases h1 : a = j + 1
  · subst h1; simp
  · rw [Function.update_noteq h1]
    by_cases h2 : a = j
    · subst h2; simp
    · rw [Function.update_noteq h2]; simp [h1, h2]

theorem bubbleBody_tailSorted {α : Type} (n lo j : Nat) (st : (Nat → ℚ) × (Nat → α))
    (hj : j + 1 < lo) (h : TailSorted st.1 n lo) : TailSorted (bubbleBody j st).1 n lo := by
  unfold bubbleBody
  split_ifs with hlt
  · intro a b hab hb hlo
    rw [swap_fst_apply, swap_fst_apply, if_neg (by omega), if_neg (by omega)]
    split_ifs
    · exact h (j + 1) b (by omega) hb hlo
    · exact h j b (by omega) hb hlo
    · exact h a b hab hb hlo
  · exact h

theorem forLoop_bubbleBody_inv {α : Type} (n lo : Nat) (st : (Nat → ℚ) × (Nat → α))
    (h : TailSorted st.1 n lo) (m : Nat) (hm : m < lo) :
    TailSorted (forLoop m bubbleBody st).1 n lo ∧
      ∀ a, a < m → (forLoop m bubbleBody st).1 m ≤ (forLoop m bubbleBody st).1 a := by
  induction m with
  | zero => exact ⟨h, fun a ha => absurd ha (Nat.not_lt_zero a)⟩
  | succ m ih =>
    obtain ⟨ih1, ih2⟩ := ih (by omega)
    rw [forLoop]
    refine ⟨bubbleBody_tailSorted n lo m _ (by omega) ih1, ?_⟩
    intro a ha
    unfold bubbleBody
    split_ifs with hlt
    · rw [swap_fst_apply, swap_fst_apply, if_neg (by omega), if_pos rfl]
      split_ifs with h1 h2
      · exact hlt.le
      · omega
      · exact ih2 a (by omega)
    · push_neg at hlt
      by_cases h1 : a = m
      · subst h1; exact hlt
      · exact hlt.trans (ih2 a (by omega))

theorem bubbleInner_tailSorted {α : Type} (n i : Nat) (hi : i + 1 < n)
    (st : (Nat → ℚ) × (Nat → α)) (h : TailSorted st.1 n (n - i)) :
    TailSorted (bubbleInner n i st).1 n (n - (i + 1)) := by
  unfold bubbleInner
  obtain ⟨h1, h2⟩ := forLoop_bubbleBody_inv n (n - i) st h (n - i - 1) (by omega)
  intro a b hab hb hlo
  by_cases hb2 : b = n - i - 1
  · subst hb2
    exact h2 a hab
  · exact h1 a b hab hb (by omega)

theorem forLoop_bubbleInner_tailSorted {α : Type} (n : Nat) (st : (Nat → ℚ) × (Nat → α))
    (k : Nat) (hk : k + 1 ≤ n) :
    TailSorted (forLoop k (bubbleInner n) st).1 n (n - k) := by
  induction k with
  | zero =>
    intro a b _ hb hlo
    omega
  | succ k ih =>
    rw [forLoop]
    exact bubbleInner_tailSorted n k (by omega) _ (ih (by omega))

/-- After `bubbleSort` every entry is at most every entry before it. -/
theorem bubbleSort_antitone {α : Type} (arr : Nat → ℚ) (web : Nat → α) (n : Nat)
    (a b : Nat) (hab : a < b) (hb : b < n) :
    (bubbleSort arr web n).1 b ≤ (bubbleSort arr web n).1 a := by
  unfold bubbleSort
  exact forLoop_bubbleInner_tailSorted n (arr, web) (n - 1) (by omega) a b hab hb (by omega)

/-! ### bubbleSort: stability -/

theorem entries_succ {α : Type} (st : (Nat → ℚ) × (Nat → α)) (n : Nat) :
    entries st (n + 1) = entries st n ++ [(st.1 n, st.2 n)] := by
  unfold entries
  rw [List.range_succ, List.map_append]
  rfl

theorem entries_congr {α : Type} (st st' : (Nat → ℚ) × (Nat → α)) (n : Nat)
    (h : ∀ k, k < n → st'.1 k = st.1 k ∧ st'.2 k = st.2 k) : entries st' n = entries st n := by
  unfold entries
  refine List.map_congr_left (fun k hk => ?_)
  obtain ⟨h1, h2⟩ := h k (List.mem_range.1 hk)
  rw [h1, h2]

/-- Exchanging two neighbours with different scores leaves, for every score
`v`, the sequence of entries with score `v` as it was. -/
theorem swap_filter_entries {α : Type} (st : (Nat → ℚ) × (Nat → α)) (j : Nat)
    (hne : st.1 j ≠ st.1 (j + 1)) (v : ℚ) (n : Nat) (hn : j + 1 < n) :
    (entries (swap st j (j + 1)) n).filter (fun e => e.1 = v) =
      (entries st n).filter (fun e => e.1 = v) := by
  induction n with
  | zero => omega
  | succ n ih =>
    by_cases h : j + 1 < n
    · rw [entries_succ, entries_succ, List.filter_append, List.filter_append, ih h,
        swap_fst_apply, swap_snd_apply, if_neg (by omega), if_neg (by omega),
        if_neg (by omega), if_neg (by omega)]
    · have hn2 : n = j + 1 := by omega
      subst hn2
      rw [entries_succ, entries_succ, entries_succ, entries_succ]
      have hc : entries (swap st j (j + 1)) j = entries st j := by
        refine entries_congr st _ j (fun k hk => ?_)
        rw [swap_fst_apply, swap_snd_apply, if_neg (by omega), if_neg (by omega),
          if_neg (by omega), if_neg (by omega)]
        exact ⟨rfl, rfl⟩
      rw [hc]
      simp only [swap_fst_apply, swap_snd_apply, if_true, List.append_assoc,
        List.filter_append]
      simp only [if_neg (Nat.succ_ne_self j), if_true, List.singleton_append]
      congr 1
      by_cases h1 : st.1 j = v
      · have h2 : ¬ st.1 (j + 1) = v := fun h2 => hne (h1.trans h2.symm)
        simp [List.filter_cons, h1, h2]
      · simp [List.filter_cons, h1]

theorem bubbleBody_filter_entries {α : Type} (st : (Nat → ℚ) × (Nat → α)) (j : Nat) (v : ℚ)
    (n : Nat) (hn : j + 1 < n) :
    (entries (bubbleBody j st) n).filter (fun e => e.1 = v) =
      (entries st n).filter (fun e => e.1 = v) := by
  unfold bubbleBody
  split_ifs with hlt
  · exact swap_filter_entries st j hlt.ne v n hn
  · rfl

theorem forLoop_bubbleBody_filter {α : Type} (st : (Nat → ℚ) × (Nat → α)) (v : ℚ)
    (n m : Nat) (hm : m < n) :
    (entries (forLoop m bubbleBody st) n).filter (fun e => e.1 = v) =
      (entries st n).filter (fun e => e.1 = v) := by
  induction m with
  | zero => rfl
  | succ m ih =>
    rw [forLoop, bubbleBody_filter_entries _ m v n (by omega), ih (by omega)]

theorem forLoop_bubbleInner_filter {α : Type} (st : (Nat → ℚ) × (Nat → α)) (v : ℚ)
    (n k : Nat) (hk : k + 1 ≤ n) :
    (entries (forLoop k (bubbleInner n) st) n).filter (fun e => e.1 = v) =
      (entries st n).filter (fun e => e.1 = v) := by
  induction k with
  | zero => rfl
  | succ k ih =>
    rw [forLoop]
    have h := forLoop_bubbleBody_filter (forLoop k (bubbleInner n) st) v n (n - k - 1) (by omega)
    exact h.trans (ih (by omega))

theorem bubbleSort_filter {α : Type} (arr : Nat → ℚ) (web : Nat → α) (n : Nat) (v : ℚ) :
    (entries (bubbleSort arr web n) n).filter (fun e => e.1 = v) =
      (entries (arr, web) n).filter (fun e => e.1 = v) := by
  unfold bubbleSort
  cases n with
  | zero => rfl
  | succ n => exact forLoop_bubbleInner_filter (arr, web) v (n + 1) n le_rfl

/-! ## The claims -/

/-- Claim C1: for `n ≥ 1`, an in-range edge list and `0 < damp < 1` (in
particular `damp = 0.75`), if the relaxation loop returns the vector `p`, then
every row `i` of the assembled system has `|b[i] - Σ_j A[i][j] * p[j]| < 1e-6`. -/
theorem solve_residual_lt (n : Nat) (edges : List (Nat × Nat)) (damp : ℚ) (hn : 1 ≤ n)
    (_hr : InRange n edges) (h0 : 0 < damp) (h1 : damp < 1) (fuel : Nat) (p : Nat → ℚ)
    (it : Nat) (h : solve n edges damp fuel = some (p, it)) (i : Nat) (hi : i < n) :
    |assembleB n damp i
        - ∑ j in Finset.range n, assembleA n damp (build n edges).St i j * p j|
      < 1 / 1000000 := by
  exact (damped_build n edges damp hn h0 h1).relaxLoop_residual_lt fuel _ 0 p it h i hi

/-- Claim C2: for `n ≥ 1` and an in-range edge list, every row of the built
matrix `S` sums to exactly 1, dangling rows included. -/
theorem build_row_sum_eq_one (n : Nat) (edges : List (Nat × Nat)) (_hn : 1 ≤ n)
    (_hr : InRange n edges) (i : Nat) (hi : i < n) :
    ∑ j in Finset.range n, (build n edges).S i j = 1 :=
  build_S_row_sum n edges i hi

/-- Claim C3: for `n ≥ 1` and an in-range edge list, `S[i][j] = 1/n` when entity
`i` has no outgoing edge; otherwise `S[i][j] = 1/outdeg(i)` when the edge
`(i, j)` occurs in the list and `S[i][j] = 0` when it does not, `outdeg(i)`
being the number of distinct destinations of `i`. -/
theorem build_entries (n : Nat) (edges : List (Nat × Nat)) (_hn : 1 ≤ n)
    (hr : InRange n edges) (i j : Nat) (hi : i < n) (hj : j < n) :
    (build n edges).S i j =
      if ¬ ∃ e ∈ edges, e.1 = i + 1 then 1 / (n : ℚ)
      else if (i + 1, j + 1) ∈ edges then 1 / (outdeg edges i : ℚ) else 0 :=
  build_S_inRange n edges hr i j hi hj

/-- Claim C4: for `n ≥ 1` and an in-range edge list, with `d = 0.75`, the
relaxation loop started from the uniform vector returns after finitely many
passes: some pass `t` has error `Σ_i |shift_i| < 1e-6`, every earlier pass has
not, and with enough fuel the loop returns after `t + 1` iterations. -/
theorem solve_terminates (n : Nat) (edges : List (Nat × Nat)) (hn : 1 ≤ n)
    (_hr : InRange n edges) :
    ∃ fuel p t, solve n edges d fuel = some (p, t + 1) ∧
      (pass n (assembleA n d (build n edges).St) (assembleB n d)
        (afterPasses n (assembleA n d (build n edges).St) (assembleB n d)
          (initRank n) t)).2 < 1 / 1000000 ∧
      ∀ s, s < t → 1 / 1000000 ≤
        (pass n (assembleA n d (build n edges).St) (assembleB n d)
          (afterPasses n (assembleA n d (build n edges).St) (assembleB n d)
            (initRank n) s)).2 := by
  have hD := damped_build n edges d hn (by norm_num [d]) (by norm_num [d])
  obtain ⟨fuel, hf⟩ := hD.relaxLoop_terminates (initRank n) 0
  obtain ⟨⟨p, it⟩, hr⟩ := Option.isSome_iff_exists.1 hf
  obtain ⟨t, h1, _, _, h4, h5⟩ := relaxLoop_some n _ _ fuel _ 0 p it hr
  refine ⟨fuel, p, t, ?_, h4, h5⟩
  unfold solve
  rw [hr, h1, zero_add]

/-- Claim C6: `bubbleSort` is stable: for every score `v`, the entries with
score `v` appear in the output in the same order as in the input. -/
theorem bubbleSort_stable {α : Type} (arr : Nat → ℚ) (web : Nat → α) (n : Nat) (v : ℚ) :
    (entries (bubbleSort arr web n) n).filter (fun e => e.1 = v) =
      (entries (arr, web) n).filter (fun e => e.1 = v) :=
  bubbleSort_filter arr web n v

/-- Claim C7: for `n ≥ 1`, an in-range edge list and `0 < damp < 1`, every entry
of the score vector is strictly positive after every row update of the
relaxation started from the uniform vector (after `t` passes and `k ≤ n` further
rows), hence in the vector the loop returns. -/
theorem scores_pos (n : Nat) (edges : List (Nat × Nat)) (damp : ℚ) (hn : 1 ≤ n)
    (_hr : InRange n edges) (h0 : 0 < damp) (h1 : damp < 1) :
    (∀ t k i, k ≤ n → i < n →
      0 < (forLoop k (rowUpdate n (assembleA n damp (build n edges).St) (assembleB n damp))
        (afterPasses n (assembleA n damp (build n edges).St) (assembleB n damp)
          (initRank n) t, 0)).1 i) ∧
    (∀ fuel p it i, solve n edges damp fuel = some (p, it) → i < n → 0 < p i) := by
  have hD := damped_build n edges damp hn h0 h1
  have hpos := hD.afterPasses_pos (initRank n) (initRank_pos n)
  refine ⟨fun t k i hk hi => hD.forLoop_rowUpdate_pos _ (hpos t) k hk i hi, ?_⟩
  intro fuel p it i h hi
  exact hD.relaxLoop_pos fuel _ (initRank_pos n) 0 p it h i hi

/-- Claim C8: for `n ≥ 1`, an in-range edge list and `0 < damp < 1`, a vector `p`
returned by the relaxation loop has `|Σ_i p[i] - 1| < 1e-6 / (1 - damp)`; and for
every vector `q`, `Σ_i (b[i] - Σ_j A[i][j] * q[j]) = (1 - damp) * (1 - Σ_i q[i])`. -/
theorem solve_sum_near_one (n : Nat) (edges : List (Nat × Nat)) (damp : ℚ) (hn : 1 ≤ n)
    (_hr : InRange n edges) (h0 : 0 < damp) (h1 : damp < 1) :
    (∀ fuel p it, solve n edges damp fuel = some (p, it) →
      |∑ i in Finset.range n, p i - 1| < (1 / 1000000) / (1 - damp)) ∧
    (∀ q : Nat → ℚ,
      ∑ i in Finset.range n, (assembleB n damp i
        - ∑ j in Finset.range n, assembleA n damp (build n edges).St i j * q j) =
      (1 - damp) * (1 - ∑ i in Finset.range n, q i)) := by
  have hD := damped_build n edges damp hn h0 h1
  refine ⟨?_, fun q => hD.sum_residual q⟩
  intro fuel p it h
  exact hD.relaxLoop_sum_near_one fuel _ 0 p it h

/-- Claim C9: for `n ≥ 1` and the matrix `S` built from an in-range edge list,
`A[i][j] = (i == j ? 1 : 0) - damp * S[j][i]`, the array `St` is the transpose
of the final `S`, and `b[i] = (1 - damp) / n`, for all `i, j < n`. -/
theorem assemble_spec (n : Nat) (edges : List (Nat × Nat)) (damp : ℚ) (_hn : 1 ≤ n)
    (_hr : InRange n edges) (i j : Nat) (hi : i < n) (hj : j < n) :
    assembleA n damp (build n edges).St i j =
        (if i = j then 1 else 0) - damp * (build n edges).S j i ∧
      (build n edges).St i j = (build n edges).S j i ∧
      assembleB n damp i = (1 - damp) / (n : ℚ) :=
  ⟨by rw [assembleA_apply n damp _ i j hi hj, build_St_eq n edges i j hi hj],
   build_St_eq n edges i j hi hj, assembleB_apply n damp i hi⟩

/-- Claim C10: duplicate edges collapse and the order of the edges is
irrelevant: the matrix `S` built from an in-range edge list equals the one built
from the list with duplicates removed, and the one built from any reordering. -/
theorem build_dedup_perm (n : Nat) (edges : List (Nat × Nat)) (_hr : InRange n edges) :
    (build n edges.dedup).S = (build n edges).S ∧
      ∀ edges' : List (Nat × Nat), edges'.Perm edges → (build n edges').S = (build n edges).S :=
  ⟨by rw [build_congr n edges.dedup edges (fun e => List.mem_dedup)],
   fun edges' hp => by rw [build_congr n edges' edges (fun e => hp.mem_iff)]⟩

/-! ## Concrete instances -/

/-- On the two-cycle `1 → 2 → 1` the first pass already has error below the
tolerance. -/
theorem pass_two_cycle :
    ¬ (pass 2 (assembleA 2 d (build 2 [(1, 2), (2, 1)]).St) (assembleB 2 d) (initRank 2)).2
      ≥ 1 / 1000000 := by
  norm_num [pass, forLoop, rowUpdate, shift, dotRow, assembleA, assembleB, initRank, build,
    rowBody, normBody, countBody, markEdges, setM, Function.update, d]

/-- On the two-cycle the loop returns after one iteration. -/
theorem solve_two_cycle : solve 2 [(1, 2), (2, 1)] d 1 =
    some ((pass 2 (assembleA 2 d (build 2 [(1, 2), (2, 1)]).St) (assembleB 2 d)
      (initRank 2)).1, 1) := by
  unfold solve
  rw [relaxLoop, if_neg pass_two_cycle]

theorem d_pos : 0 < d := by norm_num [d]

theorem d_lt_one : d < 1 := by norm_num [d]

theorem solve_residual_lt_witness :
    (1 ≤ 2 ∧ InRange 2 [(1, 2), (2, 1)] ∧ 0 < d ∧ d < 1 ∧
      solve 2 [(1, 2), (2, 1)] d 1 =
        some ((pass 2 (assembleA 2 d (build 2 [(1, 2), (2, 1)]).St) (assembleB 2 d)
          (initRank 2)).1, 1) ∧ 0 < 2) ∧
    |assembleB 2 d 0
        - ∑ j in Finset.range 2, assembleA 2 d (build 2 [(1, 2), (2, 1)]).St 0 j *
          (pass 2 (assembleA 2 d (build 2 [(1, 2), (2, 1)]).St) (assembleB 2 d)
            (initRank 2)).1 j|
      < 1 / 1000000 :=
  ⟨⟨by decide, by decide, d_pos, d_lt_one, solve_two_cycle, by decide⟩,
   solve_residual_lt 2 [(1, 2), (2, 1)] d (by decide) (by decide) d_pos d_lt_one 1 _ 1
     solve_two_cycle 0 (by decide)⟩

theorem build_row_sum_eq_one_witness :
    (1 ≤ 2 ∧ InRange 2 [(1, 2)] ∧ 1 < 2) ∧
      ∑ j in Finset.range 2, (build 2 [(1, 2)]).S 1 j = 1 :=
  ⟨⟨by decide, by decide, by decide⟩,
   build_row_sum_eq_one 2 [(1, 2)] (by decide) (by decide) 1 (by decide)⟩

theorem build_entries_witness :
    (1 ≤ 3 ∧ InRange 3 [(1, 2), (1, 3), (1, 2)] ∧ 0 < 3 ∧ 1 < 3) ∧
      (build 3 [(1, 2), (1, 3), (1, 2)]).S 0 1 =
        if ¬ ∃ e ∈ [(1, 2), (1, 3), ((1 : Nat), (2 : Nat))], e.1 = 0 + 1 then 1 / ((3 : Nat) : ℚ)
        else if (0 + 1, 1 + 1) ∈ [(1, 2), (1, 3), ((1 : Nat), (2 : Nat))]
          then 1 / (outdeg [(1, 2), (1, 3), (1, 2)] 0 : ℚ) else 0 :=
  ⟨⟨by decide, by decide, by decide, by decide⟩,
   build_entries 3 [(1, 2), (1, 3), (1, 2)] (by decide) (by decide) 0 1 (by decide) (by decide)⟩

theorem solve_terminates_witness :
    (1 ≤ 2 ∧ InRange 2 [(1, 2)]) ∧
    ∃ fuel p t, solve 2 [(1, 2)] d fuel = some (p, t + 1) ∧
      (pass 2 (assembleA 2 d (build 2 [(1, 2)]).St) (assembleB 2 d)
        (afterPasses 2 (assembleA 2 d (build 2 [(1, 2)]).St) (assembleB 2 d)
          (initRank 2) t)).2 < 1 / 1000000 ∧
      ∀ s, s < t → 1 / 1000000 ≤
        (pass 2 (assembleA 2 d (build 2 [(1, 2)]).St) (assembleB 2 d)
          (afterPasses 2 (assembleA 2 d (build 2 [(1, 2)]).St) (assembleB 2 d)
            (initRank 2) s)).2 :=
  ⟨⟨by decide, by decide⟩, solve_terminates 2 [(1, 2)] (by decide) (by decide)⟩

theorem scores_pos_witness :
    (1 ≤ 2 ∧ InRange 2 [(1, 2)] ∧ 0 < d ∧ d < 1 ∧ 1 ≤ 2 ∧ 0 < 2) ∧
      0 < (forLoop 1 (rowUpdate 2 (assembleA 2 d (build 2 [(1, 2)]).St) (assembleB 2 d))
        (afterPasses 2 (assembleA 2 d (build 2 [(1, 2)]).St) (assembleB 2 d)
          (initRank 2) 3, 0)).1 0 :=
  ⟨⟨by decide, by decide, d_pos, d_lt_one, by decide, by decide⟩,
   (scores_pos 2 [(1, 2)] d (by decide) (by decide) d_pos d_lt_one).1 3 1 0
     (by decide) (by decide)⟩

theorem solve_sum_near_one_witness :
    (1 ≤ 2 ∧ InRange 2 [(1, 2), (2, 1)] ∧ 0 < d ∧ d < 1 ∧
      solve 2 [(1, 2), (2, 1)] d 1 =
        some ((pass 2 (assembleA 2 d (build 2 [(1, 2), (2, 1)]).St) (assembleB 2 d)
          (initRank 2)).1, 1)) ∧
    |∑ i in Finset.range 2,
        (pass 2 (assembleA 2 d (build 2 [(1, 2), (2, 1)]).St) (assembleB 2 d)
          (initRank 2)).1 i - 1| < (1 / 1000000) / (1 - d) :=
  ⟨⟨by decide, by decide, d_pos, d_lt_one, solve_two_cycle⟩,
   (solve_sum_near_one 2 [(1, 2), (2, 1)] d (by decide) (by decide) d_pos d_lt_one).1 1 _ 1
     solve_two_cycle⟩

theorem assemble_spec_witness :
    (1 ≤ 2 ∧ InRange 2 [(1, 2)] ∧ 0 < 2 ∧ 1 < 2) ∧
      (assembleA 2 d (build 2 [(1, 2)]).St 0 1 =
          (if 0 = 1 then 1 else 0) - d * (build 2 [(1, 2)]).S 1 0 ∧
        (build 2 [(1, 2)]).St 0 1 = (build 2 [(1, 2)]).S 1 0 ∧
        assembleB 2 d 0 = (1 - d) / ((2 : Nat) : ℚ)) :=
  ⟨⟨by decide, by decide, by decide, by decide⟩,
   assemble_spec 2 [(1, 2)] d (by decide) (by decide) 0 1 (by decide) (by decide)⟩

theorem build_dedup_perm_witness :
    InRange 3 [(1, 2), (1, 3), (1, 2)] ∧
      (build 3 [(1, 2), (1, 3), (1, 2)].dedup).S = (build 3 [(1, 2), (1, 3), (1, 2)]).S ∧
      (build 3 [(1, 3), (1, 2), (1, 2)]).S = (build 3 [(1, 2), (1, 3), (1, 2)]).S :=
  ⟨by decide, (build_dedup_perm 3 [(1, 2), (1, 3), (1, 2)] (by decide)).1,
   (build_dedup_perm 3 [(1, 2), (1, 3), (1, 2)] (by decide)).2 [(1, 3), (1, 2), (1, 2)]
     (List.Perm.swap _ _ _)⟩


/-! ### Diagonal and column dominance -/

theorem rowUpdate_fst_of_ne (n : Nat) (A : Nat → Nat → ℚ) (b : Nat → ℚ) (i : Nat)
    (st : (Nat → ℚ) × ℚ) (j : Nat) (hj : j ≠ i) : (rowUpdate n A b i st).1 j = st.1 j := by
  rw [rowUpdate_fst, Function.update_noteq hj]

/-- Rows not yet visited still hold their value from the start of the pass. -/
theorem forLoop_rowUpdate_of_ge (n : Nat) (A : Nat → Nat → ℚ) (b : Nat → ℚ)
    (st : (Nat → ℚ) × ℚ) (k j : Nat) (hj : k ≤ j) :
    (forLoop k (rowUpdate n A b) st).1 j = st.1 j := by
  induction k with
  | zero => rfl
  | succ k ih =>
    rw [forLoop, rowUpdate_fst_of_ne n A b k _ j (by omega)]
    exact ih (by omega)

/-- A visited row keeps the value its own update gave it. -/
theorem forLoop_rowUpdate_of_lt (n : Nat) (A : Nat → Nat → ℚ) (b : Nat → ℚ)
    (st : (Nat → ℚ) × ℚ) (k j : Nat) (hj : j < k) :
    (forLoop k (rowUpdate n A b) st).1 j = (forLoop (j + 1) (rowUpdate n A b) st).1 j := by
  induction k with
  | zero => omega
  | succ k ih =>
    by_cases h : j = k
    · subst h; rfl
    · rw [forLoop, rowUpdate_fst_of_ne n A b k _ j h]
      exact ih (by omega)

/-! ### bubbleSort: permutation -/

theorem swap_perm_entries {α : Type} (st : (Nat → ℚ) × (Nat → α)) (j n : Nat) (hn : j + 1 < n) :
    (entries (swap st j (j + 1)) n).Perm (entries st n) := by
  induction n with
  | zero => omega
  | succ n ih =>
    by_cases h : j + 1 < n
    · rw [entries_succ, entries_succ, swap_fst_apply, swap_snd_apply, if_neg (by omega),
        if_neg (by omega), if_neg (by omega), if_neg (by omega)]
      exact List.Perm.append_right _ (ih h)
    · have hn2 : n = j + 1 := by omega
      subst hn2
      rw [entries_succ, entries_succ, entries_succ, entries_succ]
      have hc : entries (swap st j (j + 1)) j = entries st j := by
        refine entries_congr st _ j (fun k hk => ?_)
        rw [swap_fst_apply, swap_snd_apply, if_neg (by omega), if_neg (by omega),
          if_neg (by omega), if_neg (by omega)]
        exact ⟨rfl, rfl⟩
      rw [hc]
      simp only [swap_fst_apply, swap_snd_apply, if_true, List.append_assoc]
      simp only [if_neg (Nat.succ_ne_self j), if_true, List.singleton_append]
      exact List.Perm.append_left _ (List.Perm.swap _ _ _)

theorem bubbleBody_perm_entries {α : Type} (st : (Nat → ℚ) × (Nat → α)) (j n : Nat)
    (hn : j + 1 < n) : (entries (bubbleBody j st) n).Perm (entries st n) := by
  unfold bubbleBody
  split_ifs
  · exact swap_perm_entries st j n hn
  · exact List.Perm.refl _

theorem forLoop_bubbleBody_perm {α : Type} (st : (Nat → ℚ) × (Nat → α)) (n m : Nat)
    (hm : m < n) : (entries (forLoop m bubbleBody st) n).Perm (entries st n) := by
  induction m with
  | zero => exact List.Perm.refl _
  | succ m ih =>
    rw [forLoop]
    exact (bubbleBody_perm_entries _ m n (by omega)).trans (ih (by omega))

theorem forLoop_bubbleInner_perm {α : Type} (st : (Nat → ℚ) × (Nat → α)) (n k : Nat)
    (hk : k + 1 ≤ n) : (entries (forLoop k (bubbleInner n) st) n).Perm (entries st n) := by
  induction k with
  | zero => exact List.Perm.refl _
  | succ k ih =>
    rw [forLoop]
    have h := forLoop_bubbleBody_perm (forLoop k (bubbleInner n) st) n (n - k - 1) (by omega)
    exact h.trans (ih (by omega))

theorem bubbleSort_perm_entries {α : Type} (arr : Nat → ℚ) (web : Nat → α) (n : Nat) :
    (entries (bubbleSort arr web n) n).Perm (entries (arr, web) n) := by
  unfold bubbleSort
  cases n with
  | zero => exact List.Perm.refl _
  | succ n => exact forLoop_bubbleInner_perm (arr, web) (n + 1) n le_rfl

/-! ### Edge records -/

theorem readEdges_map_some (edges : List (Nat × Nat)) (S : Nat → Nat → ℚ) :
    readEdges (edges.map some) S =
      some (edges.foldl (fun S e => setM S (e.1 - 1) (e.2 - 1) 1) S) := by
  induction edges generalizing S with
  | nil => rfl
  | cons e es ih => rw [List.map_cons, readEdges, ih, List.foldl_cons]

theorem readEdges_eq_none_iff (recs : List (Option (Nat × Nat))) (S : Nat → Nat → ℚ) :
    readEdges recs S = none ↔ none ∈ recs := by
  induction recs generalizing S with
  | nil => simp [readEdges]
  | cons r rs ih =>
    cases r with
    | none => simp [readEdges]
    | some e => simp [readEdges, ih]

theorem markEdges_ne_zero_lt (n : Nat) (edges : List (Nat × Nat)) (hr : InRange n edges)
    (i j : Nat) (h : markEdges edges i j ≠ 0) : i < n ∧ j < n := by
  rw [markEdges_inRange n edges hr] at h
  by_cases he : (i + 1, j + 1) ∈ edges
  · have := hr _ he
    simp only at this
    omega
  · rw [if_neg he] at h
    exact absurd rfl h

/-! ### Contraction of the residual by one pass -/

theorem passWeight_le_one {damp : ℚ} (h1 : damp < 1) (k i : Nat) : passWeight damp k i ≤ 1 := by
  unfold passWeight
  split_ifs
  · exact le_rfl
  · exact h1.le

theorem passWeight_nonneg {damp : ℚ} (h0 : 0 < damp) (k i : Nat) : 0 ≤ passWeight damp k i := by
  unfold passWeight
  split_ifs
  · exact zero_le_one
  · exact h0.le

/-- Effect of the update of row `k` on the weighted absolute residual of row `i`. -/
theorem Damped.weighted_residual_step {n : Nat} {damp : ℚ} {S A : Nat → Nat → ℚ} {b : Nat → ℚ}
    (hD : Damped n damp S A b) (p : Nat → ℚ) (k : Nat) (hk : k < n) (i : Nat) (hi : i < n) :
    passWeight damp (k + 1) i *
        |residual n A b (Function.update p k (p k + shift n A b p k)) i| ≤
      passWeight damp k i * |residual n A b p i|
        + passWeight damp k i * (damp * S k i * |shift n A b p k|)
        - (if i = k then damp * |shift n A b p k| else 0) := by
  have hstep := hD.abs_residual_step p k hk i hi
  rcases Nat.lt_trichotomy i k with h | h | h
  · have e1 : passWeight damp (k + 1) i = 1 := by
      unfold passWeight; rw [if_pos (by omega)]
    have e2 : passWeight damp k i = 1 := by
      unfold passWeight; rw [if_pos h]
    rw [e1, e2, if_neg (by omega)]
    rw [if_neg (by omega)] at hstep
    linarith
  · subst h
    have e1 : passWeight damp (i + 1) i = 1 := by
      unfold passWeight; rw [if_pos (by omega)]
    have e2 : passWeight damp i i = damp := by
      unfold passWeight; rw [if_neg (by omega)]
    rw [e1, e2, if_pos rfl, hD.residual_self p i hi, abs_zero, mul_zero,
      hD.residual_eq_shift p i hi, abs_mul, abs_of_pos (hD.A_diag_pos i hi), hD.A_diag i hi]
    apply le_of_eq
    ring
  · have e1 : passWeight damp (k + 1) i = damp := by
      unfold passWeight; rw [if_neg (by omega)]
    have e2 : passWeight damp k i = damp := by
      unfold passWeight; rw [if_neg (by omega)]
    rw [e1, e2, if_neg (by omega)]
    rw [if_neg (by omega)] at hstep
    have := mul_le_mul_of_nonneg_left hstep hD.d_pos.le
    linarith

theorem Damped.weighted_total_step {n : Nat} {damp : ℚ} {S A : Nat → Nat → ℚ} {b : Nat → ℚ}
    (hD : Damped n damp S A b) (p : Nat → ℚ) (k : Nat) (hk : k < n) :
    ∑ i in Finset.range n, passWeight damp (k + 1) i *
        |residual n A b (Function.update p k (p k + shift n A b p k)) i| ≤
      ∑ i in Finset.range n, passWeight damp k i * |residual n A b p i| := by
  have h : ∑ i in Finset.range n, passWeight damp (k + 1) i *
        |residual n A b (Function.update p k (p k + shift n A b p k)) i| ≤
      ∑ i in Finset.range n, (passWeight damp k i * |residual n A b p i|
        + passWeight damp k i * (damp * S k i * |shift n A b p k|)
        - (if i = k then damp * |shift n A b p k| else 0)) :=
    Finset.sum_le_sum (fun i hi => hD.weighted_residual_step p k hk i (Finset.mem_range.1 hi))
  rw [Finset.sum_sub_distrib, Finset.sum_add_distrib, Finset.sum_ite_eq' (Finset.range n) k,
    if_pos (Finset.mem_range.2 hk)] at h
  have h2 : ∑ i in Finset.range n, passWeight damp k i * (damp * S k i * |shift n A b p k|) ≤
      damp * |shift n A b p k| := by
    have h3 : ∑ i in Finset.range n, passWeight damp k i * (damp * S k i * |shift n A b p k|) ≤
        ∑ i in Finset.range n, damp * S k i * |shift n A b p k| := by
      refine Finset.sum_le_sum (fun i _ => ?_)
      have hnn : 0 ≤ damp * S k i * |shift n A b p k| :=
        mul_nonneg (mul_nonneg hD.d_pos.le (hD.S_nonneg k i)) (abs_nonneg _)
      calc passWeight damp k i * (damp * S k i * |shift n A b p k|)
          ≤ 1 * (damp * S k i * |shift n A b p k|) :=
            mul_le_mul_of_nonneg_right (passWeight_le_one hD.d_lt k i) hnn
        _ = damp * S k i * |shift n A b p k| := one_mul _
    have h4 : ∑ i in Finset.range n, damp * S k i * |shift n A b p k| =
        damp * |shift n A b p k| := by
      rw [← Finset.sum_mul, ← Finset.mul_sum, hD.S_row k hk, mul_one]
    linarith
  linarith

theorem Damped.weighted_total_le {n : Nat} {damp : ℚ} {S A : Nat → Nat → ℚ} {b : Nat → ℚ}
    (hD : Damped n damp S A b) (p : Nat → ℚ) (k : Nat) (hk : k ≤ n) :
    ∑ i in Finset.range n, passWeight damp k i *
        |residual n A b (forLoop k (rowUpdate n A b) (p, 0)).1 i| ≤
      damp * ∑ i in Finset.range n, |residual n A b p i| := by
  induction k with
  | zero =>
    rw [Finset.mul_sum]
    refine le_of_eq (Finset.sum_congr rfl (fun i _ => ?_))
    unfold passWeight
    rw [if_neg (Nat.not_lt_zero i)]
    rfl
  | succ k ih =>
    rw [forLoop, rowUpdate_fst]
    exact (hD.weighted_total_step _ k (by omega)).trans (ih (by omega))

/-- One pass contracts the total absolute residual by the damping factor. -/
theorem Damped.pass_contracts {n : Nat} {damp : ℚ} {S A : Nat → Nat → ℚ} {b : Nat → ℚ}
    (hD : Damped n damp S A b) (p : Nat → ℚ) :
    ∑ i in Finset.range n, |residual n A b (pass n A b p).1 i| ≤
      damp * ∑ i in Finset.range n, |residual n A b p i| := by
  have h := hD.weighted_total_le p n le_rfl
  have h2 : ∑ i in Finset.range n, passWeight damp n i *
        |residual n A b (forLoop n (rowUpdate n A b) (p, 0)).1 i| =
      ∑ i in Finset.range n, |residual n A b (forLoop n (rowUpdate n A b) (p, 0)).1 i| := by
    refine Finset.sum_congr rfl (fun i hi => ?_)
    unfold passWeight
    rw [if_pos (Finset.mem_range.1 hi), one_mul]
  rw [h2] at h
  exact h

/-! ### Doubly stochastic inputs -/

theorem rowUpdate_of_residual_zero (n : Nat) (A : Nat → Nat → ℚ) (b : Nat → ℚ) (k : Nat)
    (st : (Nat → ℚ) × ℚ) (h : residual n A b st.1 k = 0) : rowUpdate n A b k st = st := by
  have hs : shift n A b st.1 k = 0 := by rw [shift_eq, h, mul_zero]
  unfold rowUpdate
  rw [hs, add_zero, abs_zero, add_zero, Function.update_eq_self]

/-- With unit column sums the uniform vector has zero residual in every row. -/
theorem Damped.residual_initRank {n : Nat} {damp : ℚ} {S A : Nat → Nat → ℚ} {b : Nat → ℚ}
    (hD : Damped n damp S A b) (hcol : ∀ j, j < n → ∑ i in Finset.range n, S i j = 1)
    (k : Nat) (hk : k < n) : residual n A b (initRank n) k = 0 := by
  have hn : (n : ℚ) ≠ 0 := by exact_mod_cast hD.n_pos.ne'
  unfold residual
  have h1 : ∑ j in Finset.range n, A k j * initRank n j =
      ∑ j in Finset.range n, ((if j = k then 1 / (n : ℚ) else 0) - damp / (n : ℚ) * S j k) := by
    refine Finset.sum_congr rfl (fun j hj => ?_)
    have hj2 := Finset.mem_range.1 hj
    rw [hD.A_eq k j hk hj2, initRank_apply n j hj2]
    by_cases h : k = j
    · subst h; simp; ring
    · have h2 : ¬ j = k := fun e => h e.symm
      simp [h, h2]; ring
  rw [h1, Finset.sum_sub_distrib, Finset.sum_ite_eq' (Finset.range n) k,
    if_pos (Finset.mem_range.2 hk), ← Finset.mul_sum, hcol k hk, hD.b_eq k hk]
  field_simp

theorem Damped.forLoop_rowUpdate_initRank {n : Nat} {damp : ℚ} {S A : Nat → Nat → ℚ}
    {b : Nat → ℚ} (hD : Damped n damp S A b)
    (hcol : ∀ j, j < n → ∑ i in Finset.range n, S i j = 1) (k : Nat) (hk : k ≤ n) :
    forLoop k (rowUpdate n A b) (initRank n, 0) = (initRank n, 0) := by
  induction k with
  | zero => rfl
  | succ k ih =>
    rw [forLoop, ih (by omega)]
    exact rowUpdate_of_residual_zero n A b k _ (hD.residual_initRank hcol k (by omega))

theorem Damped.relaxLoop_initRank {n : Nat} {damp : ℚ} {S A : Nat → Nat → ℚ}
    {b : Nat → ℚ} (hD : Damped n damp S A b)
    (hcol : ∀ j, j < n → ∑ i in Finset.range n, S i j = 1) (fuel : Nat) :
    relaxLoop n A b (fuel + 1) (initRank n) 0 = some (initRank n, 1) := by
  have hp : pass n A b (initRank n) = (initRank n, 0) :=
    hD.forLoop_rowUpdate_initRank hcol n le_rfl
  rw [relaxLoop, hp, if_neg (by norm_num)]

/-! ### Running the loop again from a returned vector -/

/-- The loop returns after pass `t` when that pass is the first with error
below the tolerance and the fuel reaches it. -/
theorem relaxLoop_eq_some (n : Nat) (A : Nat → Nat → ℚ) (b : Nat → ℚ) (fuel : Nat)
    (p : Nat → ℚ) (it t : Nat) (hf : t < fuel)
    (h1 : ∀ s, s < t → 1 / 1000000 ≤ (pass n A b (afterPasses n A b p s)).2)
    (h2 : (pass n A b (afterPasses n A b p t)).2 < 1 / 1000000) :
    relaxLoop n A b fuel p it = some (afterPasses n A b p (t + 1), it + t + 1) := by
  induction t generalizing fuel p it with
  | zero =>
    cases fuel with
    | zero => omega
    | succ fuel =>
      have h2' : ¬ (pass n A b p).2 ≥ 1 / 1000000 := not_le.2 h2
      rw [relaxLoop, if_neg h2']
      rfl
  | succ t ih =>
    cases fuel with
    | zero => omega
    | succ fuel =>
      have hshift : ∀ s, afterPasses n A b (pass n A b p).1 s = afterPasses n A b p (s + 1) := by
        intro s
        induction s with
        | zero => rfl
        | succ s ihs => rw [afterPasses, ihs]; rfl
      have h0 : (pass n A b p).2 ≥ 1 / 1000000 := h1 0 (by omega)
      rw [relaxLoop, if_pos h0,
        ih fuel (pass n A b p).1 (it + 1) (by omega)
          (fun s hs => by rw [hshift]; exact h1 (s + 1) (by omega))
          (by rw [hshift]; exact h2), hshift]
      have e : it + 1 + t + 1 = it + (t + 1) + 1 := by omega
      rw [e]

/-- The entries visited so far have moved by the error accumulated so far. -/
theorem forLoop_rowUpdate_move (n : Nat) (A : Nat → Nat → ℚ) (b p : Nat → ℚ) (k : Nat) :
    ∑ i in Finset.range k, |(forLoop k (rowUpdate n A b) (p, 0)).1 i - p i| =
      (forLoop k (rowUpdate n A b) (p, 0)).2 := by
  induction k with
  | zero => simp [forLoop]
  | succ k ih =>
    rw [Finset.sum_range_succ, forLoop, rowUpdate_snd, rowUpdate_fst, Function.update_same,
      forLoop_rowUpdate_of_ge n A b (p, 0) k k le_rfl, ← ih]
    have h1 : ∑ i in Finset.range k,
        |Function.update (forLoop k (rowUpdate n A b) (p, 0)).1 k
          (p k + shift n A b (forLoop k (rowUpdate n A b) (p, 0)).1 k) i - p i| =
        ∑ i in Finset.range k, |(forLoop k (rowUpdate n A b) (p, 0)).1 i - p i| := by
      refine Finset.sum_congr rfl (fun i hi => ?_)
      have : i ≠ k := (Finset.mem_range.1 hi).ne
      rw [Function.update_noteq this]
    rw [h1]
    simp

theorem pass_move (n : Nat) (A : Nat → Nat → ℚ) (b p : Nat → ℚ) :
    ∑ i in Finset.range n, |(pass n A b p).1 i - p i| = (pass n A b p).2 :=
  forLoop_rowUpdate_move n A b p n

theorem afterPasses_move (n : Nat) (A : Nat → Nat → ℚ) (b p : Nat → ℚ) (t : Nat) :
    ∑ i in Finset.range n, |afterPasses n A b p t i - p i| ≤
      ∑ s in Finset.range t, (pass n A b (afterPasses n A b p s)).2 := by
  induction t with
  | zero => simp [afterPasses]
  | succ t ih =>
    rw [Finset.sum_range_succ, afterPasses, ← pass_move n A b (afterPasses n A b p t)]
    have h : ∑ i in Finset.range n, |(pass n A b (afterPasses n A b p t)).1 i - p i| ≤
        ∑ i in Finset.range n, (|afterPasses n A b p t i - p i|
          + |(pass n A b (afterPasses n A b p t)).1 i - afterPasses n A b p t i|) := by
      refine Finset.sum_le_sum (fun i _ => ?_)
      have e : (pass n A b (afterPasses n A b p t)).1 i - p i =
          (afterPasses n A b p t i - p i)
            + ((pass n A b (afterPasses n A b p t)).1 i - afterPasses n A b p t i) := by ring
      rw [e]
      exact abs_add _ _
    rw [Finset.sum_add_distrib] at h
    linarith

theorem Damped.afterPasses_decrease {n : Nat} {damp : ℚ} {S A : Nat → Nat → ℚ} {b : Nat → ℚ}
    (hD : Damped n damp S A b) (p : Nat → ℚ) (t : Nat) :
    ∑ i in Finset.range n, |residual n A b (afterPasses n A b p t) i|
      + (1 - damp) * ∑ s in Finset.range t, (pass n A b (afterPasses n A b p s)).2 ≤
      ∑ i in Finset.range n, |residual n A b p i| := by
  induction t with
  | zero => simp [afterPasses]
  | succ t ih =>
    rw [Finset.sum_range_succ, afterPasses, mul_add]
    have h := hD.pass_decrease (afterPasses n A b p t)
    linarith

/-- The total absolute residual of a returned vector is below `damp * 1e-6`. -/
theorem Damped.relaxLoop_total_residual_lt_damp {n : Nat} {damp : ℚ} {S A : Nat → Nat → ℚ}
    {b : Nat → ℚ} (hD : Damped n damp S A b) (fuel : Nat) (p0 : Nat → ℚ) (it0 : Nat)
    (p : Nat → ℚ) (it : Nat) (h : relaxLoop n A b fuel p0 it0 = some (p, it)) :
    ∑ i in Finset.range n, |residual n A b p i| < damp * (1 / 1000000) := by
  obtain ⟨t, _, _, hq, herr, _⟩ := relaxLoop_some n A b fuel p0 it0 p it h
  have h2 := hD.pass_residual_le (afterPasses n A b p0 t)
  rw [hq, afterPasses]
  exact lt_of_le_of_lt h2 (mul_lt_mul_of_pos_left herr hD.d_pos)

/-- A second run from a returned vector: with `m` passes of fuel, where
`damp ≤ m * (1 - damp)`, the loop returns, and the entries move in total by less
than `damp / (1 - damp) * 1e-6`. -/
theorem Damped.rerun {n : Nat} {damp : ℚ} {S A : Nat → Nat → ℚ}
    {b : Nat → ℚ} (hD : Damped n damp S A b) (fuel : Nat) (p0 : Nat → ℚ) (it0 : Nat)
    (p : Nat → ℚ) (it : Nat) (h : relaxLoop n A b fuel p0 it0 = some (p, it))
    (m : Nat) (hm : damp ≤ m * (1 - damp)) :
    ∃ q it', relaxLoop n A b m p 0 = some (q, it') ∧ it' ≤ m ∧
      (1 - damp) * ∑ i in Finset.range n, |q i - p i| < damp * (1 / 1000000) := by
  have hL := hD.relaxLoop_total_residual_lt_damp fuel p0 it0 p it h
  have hfuel : ∑ i in Finset.range n, |residual n A b p i| <
      m * ((1 - damp) * (1 / 1000000)) := by
    have : damp * (1 / 1000000) ≤ m * (1 - damp) * (1 / 1000000) :=
      mul_le_mul_of_nonneg_right hm (by norm_num)
    linarith
  have hs := hD.relaxLoop_isSome m p 0 hfuel
  obtain ⟨⟨q, it'⟩, hq⟩ := Option.isSome_iff_exists.1 hs
  obtain ⟨t, h1, h2, h3, _, _⟩ := relaxLoop_some n A b m p 0 q it' hq
  refine ⟨q, it', hq, by omega, ?_⟩
  have hmove := afterPasses_move n A b p (t + 1)
  have hdec := hD.afterPasses_decrease p (t + 1)
  have hnn : 0 ≤ ∑ i in Finset.range n, |residual n A b (afterPasses n A b p (t + 1)) i| :=
    Finset.sum_nonneg (fun i _ => abs_nonneg _)
  have hd : 0 < 1 - damp := by linarith [hD.d_lt]
  rw [h3]
  have := mul_le_mul_of_nonneg_left hmove hd.le
  linarith

/-! ### Concrete runs -/

theorem afterPasses_add (n : Nat) (A : Nat → Nat → ℚ) (b p : Nat → ℚ) (s t : Nat) :
    afterPasses n A b (afterPasses n A b p s) t = afterPasses n A b p (s + t) := by
  induction t with
  | zero => rfl
  | succ t ih => rw [afterPasses, ih]; rfl

theorem inRange_rerunEdges : InRange 4 rerunEdges := by decide

/-- On `rerunEdges` the first eleven passes have error at least the tolerance. -/
theorem rerunEdges_early :
    ∀ s, s < 11 → 1 / 1000000 ≤
      (pass 4 (assembleA 4 d (build 4 rerunEdges).St) (assembleB 4 d)
        (afterPasses 4 (assembleA 4 d (build 4 rerunEdges).St) (assembleB 4 d)
          (initRank 4) s)).2 := by
  decide!

theorem rerunEdges_pass12 :
    (pass 4 (assembleA 4 d (build 4 rerunEdges).St) (assembleB 4 d)
      (afterPasses 4 (assembleA 4 d (build 4 rerunEdges).St) (assembleB 4 d)
        (initRank 4) 11)).2 < 1 / 1000000 := by
  decide!

theorem rerunEdges_pass13 :
    1 / 1000000 ≤
      (pass 4 (assembleA 4 d (build 4 rerunEdges).St) (assembleB 4 d)
        (afterPasses 4 (assembleA 4 d (build 4 rerunEdges).St) (assembleB 4 d)
          (initRank 4) 12)).2 := by
  decide!

theorem rerunEdges_pass14 :
    (pass 4 (assembleA 4 d (build 4 rerunEdges).St) (assembleB 4 d)
      (afterPasses 4 (assembleA 4 d (build 4 rerunEdges).St) (assembleB 4 d)
        (initRank 4) 13)).2 < 1 / 1000000 := by
  decide!

theorem rerunEdges_entry :
    1 / 1000000 ≤
      |afterPasses 4 (assembleA 4 d (build 4 rerunEdges).St) (assembleB 4 d) (initRank 4) 14 1
        - afterPasses 4 (assembleA 4 d (build 4 rerunEdges).St) (assembleB 4 d)
            (initRank 4) 12 1| := by
  decide!

/-- On `rerunEdges` the solver returns after twelve passes. -/
theorem solve_rerunEdges :
    solve 4 rerunEdges d 12 =
      some (afterPasses 4 (assembleA 4 d (build 4 rerunEdges).St) (assembleB 4 d)
        (initRank 4) 12, 12) :=
  relaxLoop_eq_some 4 _ _ 12 (initRank 4) 0 11 (by decide) rerunEdges_early rerunEdges_pass12

/-- On the single edge `1 → 2` the first fifteen passes have error at least
the tolerance. -/
theorem oneEdge_early :
    ∀ s, s < 15 → 1 / 1000000 ≤
      (pass 2 (assembleA 2 d (build 2 [(1, 2)]).St) (assembleB 2 d)
        (afterPasses 2 (assembleA 2 d (build 2 [(1, 2)]).St) (assembleB 2 d)
          (initRank 2) s)).2 := by
  decide!

theorem oneEdge_pass16 :
    (pass 2 (assembleA 2 d (build 2 [(1, 2)]).St) (assembleB 2 d)
      (afterPasses 2 (assembleA 2 d (build 2 [(1, 2)]).St) (assembleB 2 d)
        (initRank 2) 15)).2 < 1 / 1000000 := by
  decide!

theorem oneEdge_scores :
    afterPasses 2 (assembleA 2 d (build 2 [(1, 2)]).St) (assembleB 2 d) (initRank 2) 16 0 <
      afterPasses 2 (assembleA 2 d (build 2 [(1, 2)]).St) (assembleB 2 d) (initRank 2) 16 1 := by
  decide!

theorem solve_oneEdge :
    solve 2 [(1, 2)] d 16 =
      some (afterPasses 2 (assembleA 2 d (build 2 [(1, 2)]).St) (assembleB 2 d)
        (initRank 2) 16, 16) :=
  relaxLoop_eq_some 2 _ _ 16 (initRank 2) 0 15 (by decide) oneEdge_early oneEdge_pass16

/-- Sorting two entries whose first score is the smaller exchanges them. -/
theorem bubbleSort_two {α : Type} (arr : Nat → ℚ) (web : Nat → α) (h : arr 0 < arr 1) :
    (bubbleSort arr web 2).1 0 = arr 1 ∧ (bubbleSort arr web 2).2 0 = web 1 := by
  have e : bubbleSort arr web 2 = swap (arr, web) 0 1 := by
    show bubbleBody 0 (arr, web) = swap (arr, web) 0 1
    unfold bubbleBody
    rw [if_pos h]
  rw [e, swap_fst_apply, swap_snd_apply]
  simp

/-! ## The claims, continued -/

/-- Claim C11, counterexample: on the four-entity input `rerunEdges` with
`d = 0.75` the solver returns after twelve passes, yet a second run from the
returned vector does not return after one pass; it returns after two, and its
result differs from the start vector by at least 1e-6 in entry 1. -/
theorem rerun_counterexample :
    (1 ≤ 4 ∧ InRange 4 rerunEdges) ∧
    solve 4 rerunEdges d 12 =
      some (afterPasses 4 (assembleA 4 d (build 4 rerunEdges).St) (assembleB 4 d)
        (initRank 4) 12, 12) ∧
    relaxLoop 4 (assembleA 4 d (build 4 rerunEdges).St) (assembleB 4 d) 1
      (afterPasses 4 (assembleA 4 d (build 4 rerunEdges).St) (assembleB 4 d)
        (initRank 4) 12) 0 = none ∧
    relaxLoop 4 (assembleA 4 d (build 4 rerunEdges).St) (assembleB 4 d) 2
      (afterPasses 4 (assembleA 4 d (build 4 rerunEdges).St) (assembleB 4 d)
        (initRank 4) 12) 0 =
      some (afterPasses 4 (assembleA 4 d (build 4 rerunEdges).St) (assembleB 4 d)
        (initRank 4) 14, 2) ∧
    1 / 1000000 ≤
      |afterPasses 4 (assembleA 4 d (build 4 rerunEdges).St) (assembleB 4 d) (initRank 4) 14 1
        - afterPasses 4 (assembleA 4 d (build 4 rerunEdges).St) (assembleB 4 d)
            (initRank 4) 12 1| := by
  have h13 : (pass 4 (assembleA 4 d (build 4 rerunEdges).St) (assembleB 4 d)
      (afterPasses 4 (assembleA 4 d (build 4 rerunEdges).St) (assembleB 4 d)
        (initRank 4) 12)).2 ≥ 1 / 1000000 := rerunEdges_pass13
  refine ⟨⟨by decide, inRange_rerunEdges⟩, solve_rerunEdges, ?_, ?_, rerunEdges_entry⟩
  · rw [relaxLoop, if_pos h13, relaxLoop]
  · have h := relaxLoop_eq_some 4 (assembleA 4 d (build 4 rerunEdges).St) (assembleB 4 d) 2
      (afterPasses 4 (assembleA 4 d (build 4 rerunEdges).St) (assembleB 4 d) (initRank 4) 12)
      0 1 (by decide)
      (fun s hs => by
        have hs0 : s = 0 := by omega
        subst hs0
        exact rerunEdges_pass13)
      (by rw [afterPasses_add]; exact rerunEdges_pass14)
    rw [h, afterPasses_add]

/-- Claim C11, amended: for `n ≥ 1`, an in-range edge list, `d = 0.75` and
tolerance 1e-6, if the relaxation loop returns the vector `p`, then the same
loop started again from `p` returns after at most three passes, and its result
differs from `p` by less than 3e-6, in total and so in every entry. -/
theorem rerun_bound (n : Nat) (edges : List (Nat × Nat)) (hn : 1 ≤ n)
    (_hr : InRange n edges) (fuel : Nat) (p : Nat → ℚ) (it : Nat)
    (h : solve n edges d fuel = some (p, it)) :
    ∃ q it', relaxLoop n (assembleA n d (build n edges).St) (assembleB n d) 3 p 0
        = some (q, it') ∧ it' ≤ 3 ∧
      ∑ i in Finset.range n, |q i - p i| < 3 / 1000000 ∧
      ∀ i, i < n → |q i - p i| < 3 / 1000000 := by
  have hD := damped_build n edges d hn d_pos d_lt_one
  obtain ⟨q, it', h1, h2, h3⟩ := hD.rerun fuel (initRank n) 0 p it h 3 (by norm_num [d])
  have h4 : ∑ i in Finset.range n, |q i - p i| < 3 / 1000000 := by
    have e : d = 3 / 4 := by norm_num [d]
    rw [e] at h3
    linarith
  refine ⟨q, it', h1, h2, h4, fun i hi => lt_of_le_of_lt ?_ h4⟩
  exact Finset.single_le_sum (f := fun i => |q i - p i|) (fun i _ => abs_nonneg _)
    (Finset.mem_range.2 hi)

theorem rerun_bound_witness :
    (1 ≤ 4 ∧ InRange 4 rerunEdges ∧
      solve 4 rerunEdges d 12 =
        some (afterPasses 4 (assembleA 4 d (build 4 rerunEdges).St) (assembleB 4 d)
          (initRank 4) 12, 12)) ∧
    ∃ q it', relaxLoop 4 (assembleA 4 d (build 4 rerunEdges).St) (assembleB 4 d) 3
        (afterPasses 4 (assembleA 4 d (build 4 rerunEdges).St) (assembleB 4 d)
          (initRank 4) 12) 0 = some (q, it') ∧ it' ≤ 3 ∧
      ∑ i in Finset.range 4,
        |q i - afterPasses 4 (assembleA 4 d (build 4 rerunEdges).St) (assembleB 4 d)
          (initRank 4) 12 i| < 3 / 1000000 ∧
      ∀ i, i < 4 →
        |q i - afterPasses 4 (assembleA 4 d (build 4 rerunEdges).St) (assembleB 4 d)
          (initRank 4) 12 i| < 3 / 1000000 :=
  ⟨⟨by decide, inRange_rerunEdges, solve_rerunEdges⟩,
   rerun_bound 4 rerunEdges (by decide) inRange_rerunEdges 12 _ 12 solve_rerunEdges⟩

/-- Claim C12, amended: in exact arithmetic, for `n ≥ 1`, `0 < damp < 1` and an
in-range edge list whose matrix `S` has every column summing to 1, the
relaxation loop returns after exactly one pass, every shift of that pass is 0,
and the returned vector is the uniform vector `p[i] = 1/n`. -/
theorem solve_doubly_stochastic (n : Nat) (edges : List (Nat × Nat)) (damp : ℚ) (hn : 1 ≤ n)
    (_hr : InRange n edges) (h0 : 0 < damp) (h1 : damp < 1)
    (hcol : ∀ j, j < n → ∑ i in Finset.range n, (build n edges).S i j = 1) :
    (∀ fuel, solve n edges damp (fuel + 1) = some (initRank n, 1)) ∧
    (∀ k, k < n →
      shift n (assembleA n damp (build n edges).St) (assembleB n damp)
        (forLoop k (rowUpdate n (assembleA n damp (build n edges).St) (assembleB n damp))
          (initRank n, 0)).1 k = 0) ∧
    (∀ i, i < n → initRank n i = 1 / (n : ℚ)) := by
  have hD := damped_build n edges damp hn h0 h1
  refine ⟨fun fuel => hD.relaxLoop_initRank hcol fuel, ?_, fun i hi => initRank_apply n i hi⟩
  intro k hk
  rw [hD.forLoop_rowUpdate_initRank hcol k hk.le, shift_eq, hD.residual_initRank hcol k hk,
    mul_zero]

theorem solve_doubly_stochastic_witness :
    ((1 ≤ 3 ∧ InRange 3 [(1, 2), (2, 3), (3, 1)] ∧ 0 < d ∧ d < 1 ∧
        ∀ j, j < 3 → ∑ i in Finset.range 3, (build 3 [(1, 2), (2, 3), (3, 1)]).S i j = 1) ∧
      solve 3 [(1, 2), (2, 3), (3, 1)] d (0 + 1) = some (initRank 3, 1)) ∧
    ((1 ≤ 1 ∧ InRange 1 [] ∧ 0 < d ∧ d < 1 ∧
        ∀ j, j < 1 → ∑ i in Finset.range 1, (build 1 []).S i j = 1) ∧
      solve 1 [] d (0 + 1) = some (initRank 1, 1) ∧ initRank 1 0 = 1 / ((1 : Nat) : ℚ)) ∧
    (build 1 []).S 0 0 = 1 :=
  ⟨⟨⟨by decide, by decide, d_pos, d_lt_one, by decide!⟩,
    (solve_doubly_stochastic 3 [(1, 2), (2, 3), (3, 1)] d (by decide) (by decide) d_pos
      d_lt_one (by decide!)).1 0⟩,
   ⟨⟨by decide, by decide, d_pos, d_lt_one, by decide!⟩,
    (solve_doubly_stochastic 1 [] d (by decide) (by decide) d_pos d_lt_one (by decide!)).1 0,
    (solve_doubly_stochastic 1 [] d (by decide) (by decide) d_pos d_lt_one (by decide!)).2.2 0
      (by decide)⟩, by decide!⟩

/-- Claim C13: for `n = 2`, the single edge `1 → 2` and `d = 0.75` the built
matrix is `S = [[0, 1], [1/2, 1/2]]`, the relaxation loop returns (after 16
passes), the returned score of entity 2 is strictly greater than that of entity
1, and after `bubbleSort` the first entry is entity 2. -/
theorem two_entity_scenario :
    ((build 2 [(1, 2)]).S 0 0 = 0 ∧ (build 2 [(1, 2)]).S 0 1 = 1 ∧
      (build 2 [(1, 2)]).S 1 0 = 1 / 2 ∧ (build 2 [(1, 2)]).S 1 1 = 1 / 2) ∧
    ∃ p, solve 2 [(1, 2)] d 16 = some (p, 16) ∧ p 0 < p 1 ∧
      ∀ (α : Type) (web : Nat → α),
        (bubbleSort p web 2).1 0 = p 1 ∧ (bubbleSort p web 2).2 0 = web 1 :=
  ⟨by decide!, _, solve_oneEdge, oneEdge_scores,
   fun _ web => bubbleSort_two _ web oneEdge_scores⟩

/-- Claim C14, the code at `n = 2`: the report loop prints ten entries, not
`min(10, 2) = 2`, and reads the indices `0 … 9` of the score and name arrays,
among them indices that are not below `n = 2`. -/
theorem topTen_two {α : Type} (arr : Nat → ℚ) (web : Nat → α) :
    (topTen (bubbleSort arr web 2)).length = 10 ∧ min 10 2 = 2 ∧
      topTenReads = [0, 1, 2, 3, 4, 5, 6, 7, 8, 9] ∧ ¬ ∀ i ∈ topTenReads, i < 2 := by
  refine ⟨by simp [topTen, forLoop], by decide, by decide, by decide⟩

/-- Claim C15, counterexample: with `n = 2` the record `3 1`, whose source id
is out of range, is not rejected: the edge loop completes and has written the
cell `S[2][0]`, which lies outside the 2 × 2 matrix. -/
theorem readEdges_out_of_range :
    ¬ InRange 2 [(3, 1)] ∧
      readEdges [some (3, 1)] (fun _ _ => 0) = some (markEdges [(3, 1)]) ∧
      markEdges [(3, 1)] 2 0 = 1 ∧ ¬ 2 < 2 :=
  ⟨by decide, readEdges_map_some [(3, 1)] _, by decide!, by decide⟩

/-- Claim C15, amended: the edge loop checks no id against the range; it rejects
the input exactly when some record fails to parse. For an edge list with all
endpoints in range it completes with the marked matrix, and every cell it has
written lies inside `[0, n) × [0, n)`. -/
theorem readEdges_spec (n : Nat) (recs : List (Option (Nat × Nat))) :
    (readEdges recs (fun _ _ => 0) = none ↔ none ∈ recs) ∧
    ∀ edges, InRange n edges →
      readEdges (edges.map some) (fun _ _ => 0) = some (markEdges edges) ∧
      ∀ i j, markEdges edges i j ≠ 0 → i < n ∧ j < n :=
  ⟨readEdges_eq_none_iff recs _,
   fun edges hr => ⟨readEdges_map_some edges _, markEdges_ne_zero_lt n edges hr⟩⟩

theorem readEdges_spec_witness :
    InRange 2 [(1, 2)] ∧
      readEdges ([(1, 2)].map some) (fun _ _ => 0) = some (markEdges [(1, 2)]) ∧
      (readEdges [some (1, 2), none] (fun _ _ => 0) = none ↔
        none ∈ [some ((1 : Nat), (2 : Nat)), none]) :=
  ⟨by decide, ((readEdges_spec 2 []).2 [(1, 2)] (by decide)).1,
   (readEdges_spec 2 [some (1, 2), none]).1⟩

/-- Claim C16: for `n ≥ 1`, an in-range edge list and `0 < damp < 1`, each
diagonal entry is `A[i][i] = 1 - damp * S[i][i]`, with `A[i][i] ≥ 1 - damp > 0`,
so the divisor `A[i][i]` of the row update is not zero. -/
theorem diag_pos (n : Nat) (edges : List (Nat × Nat)) (damp : ℚ) (hn : 1 ≤ n)
    (_hr : InRange n edges) (h0 : 0 < damp) (h1 : damp < 1) (i : Nat) (hi : i < n) :
    assembleA n damp (build n edges).St i i = 1 - damp * (build n edges).S i i ∧
      1 - damp ≤ assembleA n damp (build n edges).St i i ∧ 0 < 1 - damp ∧
      assembleA n damp (build n edges).St i i ≠ 0 :=
  ⟨(damped_build n edges damp hn h0 h1).A_diag i hi,
   (damped_build n edges damp hn h0 h1).A_diag_ge i hi, by linarith,
   ((damped_build n edges damp hn h0 h1).A_diag_pos i hi).ne'⟩

theorem diag_pos_witness :
    (1 ≤ 2 ∧ InRange 2 [(1, 2)] ∧ 0 < d ∧ d < 1 ∧ 1 < 2) ∧
      (assembleA 2 d (build 2 [(1, 2)]).St 1 1 = 1 - d * (build 2 [(1, 2)]).S 1 1 ∧
        1 - d ≤ assembleA 2 d (build 2 [(1, 2)]).St 1 1 ∧ 0 < 1 - d ∧
        assembleA 2 d (build 2 [(1, 2)]).St 1 1 ≠ 0) :=
  ⟨⟨by decide, by decide, d_pos, d_lt_one, by decide⟩,
   diag_pos 2 [(1, 2)] d (by decide) (by decide) d_pos d_lt_one 1 (by decide)⟩

/-- Claim C18: the update of row `i` leaves `A`, `b` and every `p[j]` with
`j ≠ i` unchanged; and within a pass, after `k` rows, an index `j ≥ k` still
holds its value from the start of the pass while an index `j < k` holds the
value written by its own update: each index is written exactly once. -/
theorem rowStep_frame (n i : Nat) (s : RelaxState) :
    (rowStep n i s).A = s.A ∧ (rowStep n i s).b = s.b ∧
    (∀ j, j ≠ i → (rowStep n i s).pageRank j = s.pageRank j) ∧
    (∀ k j, k ≤ j →
      (forLoop k (rowUpdate n s.A s.b) (s.pageRank, 0)).1 j = s.pageRank j) ∧
    (∀ k j, j < k →
      (forLoop k (rowUpdate n s.A s.b) (s.pageRank, 0)).1 j =
        (forLoop (j + 1) (rowUpdate n s.A s.b) (s.pageRank, 0)).1 j) :=
  ⟨rfl, rfl, fun j hj => rowUpdate_fst_of_ne n s.A s.b i _ j hj,
   fun k j hj => forLoop_rowUpdate_of_ge n s.A s.b _ k j hj,
   fun k j hj => forLoop_rowUpdate_of_lt n s.A s.b _ k j hj⟩

theorem rowStep_frame_witness :
    (1 ≠ 0 ∧ 1 ≤ 1 ∧ 0 < 2) ∧
      (rowStep 2 0 ⟨assembleA 2 d (build 2 [(1, 2)]).St, assembleB 2 d, initRank 2, 0⟩).pageRank 1
        = initRank 2 1 ∧
      (forLoop 1 (rowUpdate 2 (assembleA 2 d (build 2 [(1, 2)]).St) (assembleB 2 d))
        (initRank 2, 0)).1 1 = initRank 2 1 ∧
      (forLoop 2 (rowUpdate 2 (assembleA 2 d (build 2 [(1, 2)]).St) (assembleB 2 d))
        (initRank 2, 0)).1 0 =
      (forLoop (0 + 1) (rowUpdate 2 (assembleA 2 d (build 2 [(1, 2)]).St) (assembleB 2 d))
        (initRank 2, 0)).1 0 :=
  ⟨⟨by decide, by decide, by decide⟩,
   (rowStep_frame 2 0 ⟨assembleA 2 d (build 2 [(1, 2)]).St, assembleB 2 d, initRank 2, 0⟩).2.2.1
     1 (by decide),
   (rowStep_frame 2 0 ⟨assembleA 2 d (build 2 [(1, 2)]).St, assembleB 2 d, initRank 2, 0⟩).2.2.2.1
     1 1 (by decide),
   (rowStep_frame 2 0 ⟨assembleA 2 d (build 2 [(1, 2)]).St, assembleB 2 d, initRank 2, 0⟩).2.2.2.2
     2 0 (by decide)⟩

/-- Claim C19: `bubbleSort` keeps every score with its name: the output list of
(score, name) pairs is a permutation of the input list of (score, name) pairs. -/
theorem bubbleSort_perm {α : Type} (arr : Nat → ℚ) (web : Nat → α) (n : Nat) :
    (entries (bubbleSort arr web n) n).Perm (entries (arr, web) n) :=
  bubbleSort_perm_entries arr web n

/-- Claim C20, amended: in exact arithmetic, for `n ≥ 1`, an in-range edge list,
`0 < damp < 1` and every vector `p`, one pass of the relaxation in row order
contracts the total absolute residual by the damping factor:
`Σ_i |b[i] - (A p')[i]| ≤ damp * Σ_i |b[i] - (A p)[i]|`, hence does not
increase it. -/
theorem pass_contracts_residual (n : Nat) (edges : List (Nat × Nat)) (damp : ℚ) (hn : 1 ≤ n)
    (_hr : InRange n edges) (h0 : 0 < damp) (h1 : damp < 1) (p : Nat → ℚ) :
    ∑ i in Finset.range n, |assembleB n damp i - ∑ j in Finset.range n,
        assembleA n damp (build n edges).St i j *
          (pass n (assembleA n damp (build n edges).St) (assembleB n damp) p).1 j| ≤
      damp * ∑ i in Finset.range n, |assembleB n damp i - ∑ j in Finset.range n,
        assembleA n damp (build n edges).St i j * p j| ∧
    ∑ i in Finset.range n, |assembleB n damp i - ∑ j in Finset.range n,
        assembleA n damp (build n edges).St i j *
          (pass n (assembleA n damp (build n edges).St) (assembleB n damp) p).1 j| ≤
      ∑ i in Finset.range n, |assembleB n damp i - ∑ j in Finset.range n,
        assembleA n damp (build n edges).St i j * p j| := by
  have h := (damped_build n edges damp hn h0 h1).pass_contracts p
  unfold residual at h
  refine ⟨h, h.trans ?_⟩
  have hnn : 0 ≤ ∑ i in Finset.range n, |assembleB n damp i - ∑ j in Finset.range n,
        assembleA n damp (build n edges).St i j * p j| :=
    Finset.sum_nonneg (fun i _ => abs_nonneg _)
  nlinarith

theorem pass_contracts_residual_witness :
    (1 ≤ 2 ∧ InRange 2 [(1, 2)] ∧ 0 < d ∧ d < 1) ∧
    ∑ i in Finset.range 2, |assembleB 2 d i - ∑ j in Finset.range 2,
        assembleA 2 d (build 2 [(1, 2)]).St i j *
          (pass 2 (assembleA 2 d (build 2 [(1, 2)]).St) (assembleB 2 d) (initRank 2)).1 j| ≤
      d * ∑ i in Finset.range 2, |assembleB 2 d i - ∑ j in Finset.range 2,
        assembleA 2 d (build 2 [(1, 2)]).St i j * initRank 2 j| :=
  ⟨⟨by decide, by decide, d_pos, d_lt_one⟩,
   (pass_contracts_residual 2 [(1, 2)] d (by decide) (by decide) d_pos d_lt_one (initRank 2)).1⟩


/-! ### bubbleSort: the leading entries are the highest input scores -/

theorem entries_map_fst {α : Type} (st : (Nat → ℚ) × (Nat → α)) (n : Nat) :
    (entries st n).map Prod.fst = (List.range n).map st.1 := by
  unfold entries
  rw [List.map_map]
  rfl

/-- The scores after `bubbleSort` are the scores before it, rearranged. -/
theorem bubbleSort_scores_perm {α : Type} (arr : Nat → ℚ) (web : Nat → α) (n : Nat) :
    ((List.range n).map (bubbleSort arr web n).1).Perm ((List.range n).map arr) := by
  have h := (bubbleSort_perm_entries arr web n).map Prod.fst
  rw [entries_map_fst, entries_map_fst] at h
  exact h

/-- In an array in non-increasing order at most `k` entries exceed the entry at
position `k`. -/
theorem countP_gt_le_of_antitone (out : Nat → ℚ) (n : Nat)
    (h : ∀ a b, a < b → b < n → out b ≤ out a) (k : Nat) (hk : k < n) :
    List.countP (fun s => decide (out k < s)) ((List.range n).map out) ≤ k := by
  have hn : n = k + (n - k) := by omega
  rw [hn, List.range_add, List.map_append, List.countP_append]
  have h1 : List.countP (fun s => decide (out k < s)) ((List.range k).map out) ≤ k := by
    refine (List.countP_le_length _).trans ?_
    simp
  have h2 : List.countP (fun s => decide (out k < s))
      (((List.range (n - k)).map (fun x => k + x)).map out) = 0 := by
    rw [List.countP_eq_zero]
    intro s hs
    simp only [List.mem_map, List.mem_range] at hs
    obtain ⟨j, ⟨x, hx, rfl⟩, rfl⟩ := hs
    simp only [decide_eq_true_eq, not_lt]
    by_cases hx0 : x = 0
    · subst hx0; exact le_rfl
    · exact h k (k + x) (by omega) (by omega)
  omega

theorem bubbleSort_top {α : Type} (arr : Nat → ℚ) (web : Nat → α) (n : Nat) (k : Nat)
    (hk : k < n) :
    List.countP (fun s => decide ((bubbleSort arr web n).1 k < s)) ((List.range n).map arr)
      ≤ k := by
  rw [← (bubbleSort_scores_perm arr web n).countP_eq]
  exact countP_gt_le_of_antitone _ n (fun a b hab hb => bubbleSort_antitone arr web n a b hab hb)
    k hk

/-! ### Double precision: sample values and the link to the exact model -/

theorem roundDouble_third : roundDouble (1 / 3) = 6004799503160661 / 18014398509481984 := by
  decide!

theorem roundDouble_tenth : roundDouble (1 / 10) = 3602879701896397 / 36028797018963968 := by
  decide!

theorem roundDouble_neg_third :
    roundDouble (-1 / 3) = -6004799503160661 / 18014398509481984 := by
  decide!

/-- A tie goes to the even significand: `1 + 2⁻⁵³` rounds down to `1`, and
`1 + 3 · 2⁻⁵³` rounds up to `1 + 2⁻⁵¹`. -/
theorem roundDouble_ties :
    roundDouble (1 + 1 / 9007199254740992) = 1 ∧
      roundDouble (1 + 3 / 9007199254740992) = 1 + 1 / 2251799813685248 := by
  decide!

/-- Values with a 53-bit significand are left as they are. -/
theorem roundDouble_exact :
    roundDouble (3 / 4) = 3 / 4 ∧ roundDouble 1 = 1 ∧
      roundDouble (1 + 1 / 4503599627370496) = 1 + 1 / 4503599627370496 := by
  decide!

/-- Without rounding the rounded definitions are the exact ones. -/
theorem rounded_id :
    buildR id = build ∧ assembleAR id = assembleA ∧ assembleBR id = assembleB ∧
      initRankR id = initRank ∧ dotRowR id = dotRow ∧ shiftR id = shift ∧
      rowUpdateR id = rowUpdate ∧ passR id = pass :=
  ⟨rfl, rfl, rfl, rfl, rfl, rfl, rfl, rfl⟩


/-! ### Double precision: what `roundDouble` computes -/

theorem pow2_eq_zpow (e : Int) : pow2 e = (2 : ℚ) ^ e := by
  unfold pow2
  split_ifs with h
  · have he : e = (e.toNat : Int) := (Int.toNat_of_nonneg h).symm
    rw [Nat.cast_pow, Nat.cast_ofNat]
    conv_rhs => rw [he]
    rw [zpow_natCast]
  · have hn : 0 ≤ -e := by omega
    have he : e = -((-e).toNat : Int) := by rw [Int.toNat_of_nonneg hn]; ring
    rw [Nat.cast_pow, Nat.cast_ofNat]
    conv_rhs => rw [he]
    rw [zpow_neg, zpow_natCast, one_div]

theorem pow2_pos (e : Int) : 0 < pow2 e := by
  rw [pow2_eq_zpow]
  positivity

theorem pow2_succ (e : Int) : pow2 (e + 1) = 2 * pow2 e := by
  rw [pow2_eq_zpow, pow2_eq_zpow, zpow_add_one₀ (by norm_num)]
  ring

theorem log2Aux_spec (fuel n : Nat) (h1 : 1 ≤ n) (hf : n ≤ fuel) :
    2 ^ log2Aux fuel n ≤ n ∧ n < 2 ^ (log2Aux fuel n + 1) := by
  induction fuel generalizing n with
  | zero => omega
  | succ fuel ih =>
    rw [log2Aux]
    split_ifs with h2
    · obtain ⟨ih1, ih2⟩ := ih (n / 2) (by omega) (by omega)
      simp only [pow_succ] at ih2 ⊢
      generalize 2 ^ log2Aux fuel (n / 2) = P at ih1 ih2 ⊢
      constructor <;> omega
    · simp; omega

/-- The binary exponent brackets a positive rational between two consecutive
powers of two. -/
theorem binExp_spec (a : ℚ) (ha : 0 < a) : pow2 (binExp a) ≤ a ∧ a < pow2 (binExp a + 1) := by
  have hnum : 0 < a.num := Rat.num_pos.2 ha
  have hN : ((a.num.natAbs : Nat) : ℚ) = (a.num : ℚ) := by
    have h0 : ((a.num.natAbs : Nat) : Int) = a.num := Int.natAbs_of_nonneg hnum.le
    have h00 : (((a.num.natAbs : Nat) : Int) : ℚ) = (a.num : ℚ) := by rw [h0]
    rw [← h00, Int.cast_natCast]
  have hN1 : 1 ≤ a.num.natAbs := by omega
  have hD1 : 1 ≤ a.den := a.den_pos
  obtain ⟨n1, n2⟩ := log2Aux_spec a.num.natAbs a.num.natAbs hN1 le_rfl
  obtain ⟨d1, d2⟩ := log2Aux_spec a.den a.den hD1 le_rfl
  have hden : (0 : ℚ) < a.den := by exact_mod_cast a.den_pos
  have ha_eq : a = (a.num.natAbs : ℚ) / (a.den : ℚ) := by
    rw [hN]; exact (Rat.num_div_den a).symm
  have n1' : ((2 : ℚ) ^ log2Aux a.num.natAbs a.num.natAbs) ≤ (a.num.natAbs : ℚ) := by
    exact_mod_cast n1
  have n2' : (a.num.natAbs : ℚ) < (2 : ℚ) ^ (log2Aux a.num.natAbs a.num.natAbs + 1) := by
    exact_mod_cast n2
  have d1' : ((2 : ℚ) ^ log2Aux a.den a.den) ≤ (a.den : ℚ) := by exact_mod_cast d1
  have d2' : (a.den : ℚ) < (2 : ℚ) ^ (log2Aux a.den a.den + 1) := by exact_mod_cast d2
  unfold binExp
  generalize log2Aux a.num.natAbs a.num.natAbs = LN at n1' n2' ⊢
  generalize log2Aux a.den a.den = LD at d1' d2' ⊢
  generalize (a.num.natAbs : ℚ) = N at ha_eq n1' n2'
  generalize (a.den : ℚ) = D at ha_eq d1' d2' hden
  clear n1 n2 d1 d2 hN hN1 hD1 hnum
  subst ha_eq
  have hpN : (0 : ℚ) < (2 : ℚ) ^ LN := by positivity
  have hpD : (0 : ℚ) < (2 : ℚ) ^ LD := by positivity
  have hz : pow2 ((LN : Int) - (LD : Int)) =
      (2 : ℚ) ^ LN / (2 : ℚ) ^ LD := by
    rw [pow2_eq_zpow, zpow_sub₀ (by norm_num), zpow_natCast, zpow_natCast]
  -- the quotient lies strictly between half and twice that power of two
  have hlow : pow2 ((LN : Int) - (LD : Int))
      < 2 * (N / D) := by
    rw [hz, div_lt_iff₀ hpD]
    rw [pow_succ] at d2'
    have e : 2 * (N / D) * (2 : ℚ) ^ LD =
        N * (2 * (2 : ℚ) ^ LD / D) := by
      field_simp; ring
    rw [e]
    have h3 : 1 < 2 * (2 : ℚ) ^ LD / D := by
      rw [lt_div_iff₀ hden]; linarith
    have hNpos : (0 : ℚ) < N := lt_of_lt_of_le hpN n1'
    nlinarith
  have hhigh : N / D < 2 * pow2 ((LN : Int)
      - (LD : Int)) := by
    rw [hz]
    rw [pow_succ] at n2'
    rw [div_lt_iff₀ hden]
    have e : 2 * ((2 : ℚ) ^ LN / (2 : ℚ) ^ LD)
        * D = (2 * (2 : ℚ) ^ LN)
          * (D / (2 : ℚ) ^ LD) := by
      field_simp
    rw [e]
    have h3 : 1 ≤ D / (2 : ℚ) ^ LD := by
      rw [le_div_iff₀ hpD]; linarith
    nlinarith
  split_ifs with h
  · exact ⟨h, by rw [pow2_succ]; exact hhigh⟩
  · push_neg at h
    constructor
    · have := pow2_succ ((LN : Int)
        - (LD : Int) - 1)
      rw [sub_add_cancel] at this
      rw [this] at hlow
      linarith
    · rw [sub_add_cancel]; exact h

/-- The result of `roundEven` is within one half of its argument, and at
distance exactly one half only when it is even. -/
theorem roundEven_spec (q : ℚ) :
    |((roundEven q : Int) : ℚ) - q| ≤ 1 / 2 ∧
      (|((roundEven q : Int) : ℚ) - q| = 1 / 2 → roundEven q % 2 = 0) := by
  have hf : q.num / (q.den : Int) = ⌊q⌋ := Rat.floor_def.symm
  have h1 : ((⌊q⌋ : Int) : ℚ) ≤ q := Int.floor_le q
  have h2 : q < ((⌊q⌋ : Int) : ℚ) + 1 := Int.lt_floor_add_one q
  unfold roundEven
  rw [hf]
  generalize ⌊q⌋ = f at h1 h2 ⊢
  split_ifs with c1 c2 c3
  · have e : |(f : ℚ) - q| = q - f := by
      rw [abs_sub_comm, abs_of_nonneg (by linarith)]
    rw [e]
    exact ⟨by linarith, fun h => absurd h (by linarith)⟩
  · have e : |((f + 1 : Int) : ℚ) - q| = (f : ℚ) + 1 - q := by
      push_cast
      rw [abs_of_nonneg (by linarith)]
    rw [e]
    exact ⟨by linarith, fun h => absurd h (by linarith)⟩
  · have e : |(f : ℚ) - q| = q - f := by
      rw [abs_sub_comm, abs_of_nonneg (by linarith)]
    rw [e]
    exact ⟨by linarith, fun _ => c3⟩
  · have e : |((f + 1 : Int) : ℚ) - q| = (f : ℚ) + 1 - q := by
      push_cast
      rw [abs_of_nonneg (by linarith)]
    rw [e]
    exact ⟨by linarith, fun _ => by omega⟩

theorem pow2_sub_52 (e : Int) : pow2 e = 4503599627370496 * pow2 (e - 52) := by
  rw [pow2_eq_zpow, pow2_eq_zpow, zpow_sub₀ (by norm_num)]
  field_simp
  norm_num
  ring

/-- What `roundDouble` computes for `x ≠ 0`: with `e = ⌊log₂ |x|⌋` the result is
`± m * 2 ^ (e - 52)` for an integer `2⁵² ≤ m ≤ 2⁵³`, it lies within half a unit
`2 ^ (e - 52)` of `x`, and at exactly half a unit only when `m` is even. -/
theorem roundDouble_spec (x : ℚ) (hx : x ≠ 0) :
    roundDouble x = (if x < 0 then -1 else 1)
      * ((roundEven (|x| / pow2 (binExp |x| - 52)) : Int) : ℚ) * pow2 (binExp |x| - 52) ∧
    (pow2 (binExp |x|) ≤ |x| ∧ |x| < pow2 (binExp |x| + 1)) ∧
    (4503599627370496 ≤ roundEven (|x| / pow2 (binExp |x| - 52)) ∧
      roundEven (|x| / pow2 (binExp |x| - 52)) ≤ 9007199254740992) ∧
    |roundDouble x - x| ≤ pow2 (binExp |x| - 52) / 2 ∧
    (|roundDouble x - x| = pow2 (binExp |x| - 52) / 2 →
      roundEven (|x| / pow2 (binExp |x| - 52)) % 2 = 0) := by
  have hdef : roundDouble x = (if x < 0 then -1 else 1)
      * ((roundEven (|x| / pow2 (binExp |x| - 52)) : Int) : ℚ) * pow2 (binExp |x| - 52) := by
    unfold roundDouble
    rw [if_neg hx]
  have habs : 0 < |x| := abs_pos.2 hx
  obtain ⟨b1, b2⟩ := binExp_spec |x| habs
  have hu := pow2_pos (binExp |x| - 52)
  have hu52 := pow2_sub_52 (binExp |x|)
  rw [pow2_succ] at b2
  obtain ⟨r1, r2⟩ := roundEven_spec (|x| / pow2 (binExp |x| - 52))
  generalize pow2 (binExp |x| - 52) = u at hdef hu hu52 r1 r2 ⊢
  generalize roundEven (|x| / u) = m at hdef r1 r2 ⊢
  have hq1 : 4503599627370496 ≤ |x| / u := by
    rw [le_div_iff₀ hu]; linarith
  have hq2 : |x| / u < 9007199254740992 := by
    rw [div_lt_iff₀ hu]; linarith
  have hr := abs_le.1 r1
  have hdist : |roundDouble x - x| = |(m : ℚ) - |x| / u| * u := by
    have hmu : ((m : ℚ) - |x| / u) * u = (m : ℚ) * u - |x| := by field_simp
    by_cases hneg : x < 0
    · have hx' : |x| = -x := abs_of_neg hneg
      have e : roundDouble x - x = -(((m : ℚ) - |x| / u) * u) := by
        rw [hdef, if_pos hneg, hmu, hx']; ring
      rw [e, abs_neg, abs_mul, abs_of_pos hu]
    · have hx' : |x| = x := abs_of_nonneg (not_lt.1 hneg)
      have e : roundDouble x - x = ((m : ℚ) - |x| / u) * u := by
        rw [hdef, if_neg hneg, hmu, hx']; ring
      rw [e, abs_mul, abs_of_pos hu]
  refine ⟨hdef, ⟨b1, by rw [pow2_succ]; exact b2⟩, ⟨?_, ?_⟩, ?_, ?_⟩
  · have : ((4503599627370496 - 1 : Int) : ℚ) < (m : ℚ) := by
      push_cast; linarith [hr.1]
    have := Int.cast_lt.1 this
    omega
  · have : (m : ℚ) < ((9007199254740992 + 1 : Int) : ℚ) := by
      push_cast; linarith [hr.2]
    have := Int.cast_lt.1 this
    omega
  · rw [hdist]
    calc |(m : ℚ) - |x| / u| * u ≤ 1 / 2 * u := mul_le_mul_of_nonneg_right r1 hu.le
      _ = u / 2 := by ring
  · intro h
    apply r2
    rw [hdist] at h
    have h3 : |(m : ℚ) - |x| / u| * u = 1 / 2 * u := by rw [h]; ring
    exact mul_right_cancel₀ hu.ne' h3
/-! ## The revised claims -/

/-- Claim C5: after `bubbleSort` the scores are in non-increasing order,
`arr[k] ≥ arr[k+1]` for `0 ≤ k < n - 1`; they are the input scores rearranged;
so the first `min(10, n)` entries are the highest scores: each is at least
every entry that follows it, and at most `k` of the input scores exceed the
entry at position `k < min(10, n)`. -/
theorem bubbleSort_sorted {α : Type} (arr : Nat → ℚ) (web : Nat → α) (n : Nat) :
    (∀ k, k + 1 < n → (bubbleSort arr web n).1 (k + 1) ≤ (bubbleSort arr web n).1 k) ∧
    (∀ k j, k < min 10 n → k < j → j < n →
      (bubbleSort arr web n).1 j ≤ (bubbleSort arr web n).1 k) ∧
    ((List.range n).map (bubbleSort arr web n).1).Perm ((List.range n).map arr) ∧
    (∀ k, k < min 10 n →
      List.countP (fun s => decide ((bubbleSort arr web n).1 k < s)) ((List.range n).map arr)
        ≤ k) :=
  ⟨fun k hk => bubbleSort_antitone arr web n k (k + 1) (Nat.lt_succ_self k) hk,
   fun k j _ hkj hj => bubbleSort_antitone arr web n k j hkj hj,
   bubbleSort_scores_perm arr web n,
   fun k hk => bubbleSort_top arr web n k (lt_of_lt_of_le hk (Nat.min_le_right 10 n))⟩

theorem bubbleSort_sorted_witness :
    (1 + 1 < 3 ∧ 0 < min 10 3 ∧ 0 < 2 ∧ 2 < 3 ∧ 1 < min 10 3) ∧
      (bubbleSort (fun k => [(3 : ℚ), 1, 2].getD k 0) (fun k => ["a", "b", "c"].getD k "") 3).1
          (1 + 1) ≤
        (bubbleSort (fun k => [(3 : ℚ), 1, 2].getD k 0) (fun k => ["a", "b", "c"].getD k "") 3).1
          1 ∧
      (bubbleSort (fun k => [(3 : ℚ), 1, 2].getD k 0) (fun k => ["a", "b", "c"].getD k "") 3).1
          2 ≤
        (bubbleSort (fun k => [(3 : ℚ), 1, 2].getD k 0) (fun k => ["a", "b", "c"].getD k "") 3).1
          0 ∧
      List.countP
          (fun s => decide ((bubbleSort (fun k => [(3 : ℚ), 1, 2].getD k 0)
            (fun k => ["a", "b", "c"].getD k "") 3).1 1 < s))
          ((List.range 3).map (fun k => [(3 : ℚ), 1, 2].getD k 0)) ≤ 1 :=
  ⟨⟨by decide, by decide, by decide, by decide, by decide⟩,
   (bubbleSort_sorted _ _ 3).1 1 (by decide),
   (bubbleSort_sorted _ _ 3).2.1 0 2 (by decide) (by decide) (by decide),
   (bubbleSort_sorted _ _ 3).2.2.2 1 (by decide)⟩

/-- Claim C12, counterexample: on the 3-entity cycle `1 → 2 → 3 → 1` with
`d = 0.75`, whose matrix `S` has every column summing to 1, the source's
double-precision pass has every shift equal to `2⁻⁵⁶`, not 0; the pass has error
`3 · 2⁻⁵⁶`, below the tolerance, and leaves the uniform vector as it was. -/
theorem three_cycle_double_shift :
    (1 ≤ 3 ∧ InRange 3 [(1, 2), (2, 3), (3, 1)] ∧ 0 < d ∧ d < 1 ∧
      ∀ j, j < 3 →
        ∑ i in Finset.range 3, (buildR roundDouble 3 [(1, 2), (2, 3), (3, 1)]).S i j = 1) ∧
    (∀ k, k < 3 →
      shiftR roundDouble 3
        (assembleAR roundDouble 3 d (buildR roundDouble 3 [(1, 2), (2, 3), (3, 1)]).St)
        (assembleBR roundDouble 3 d)
        (forLoop k (rowUpdateR roundDouble 3
          (assembleAR roundDouble 3 d (buildR roundDouble 3 [(1, 2), (2, 3), (3, 1)]).St)
          (assembleBR roundDouble 3 d)) (initRankR roundDouble 3, 0)).1 k
        = 1 / 72057594037927936) ∧
    (passR roundDouble 3
      (assembleAR roundDouble 3 d (buildR roundDouble 3 [(1, 2), (2, 3), (3, 1)]).St)
      (assembleBR roundDouble 3 d) (initRankR roundDouble 3)).2 = 3 / 72057594037927936 ∧
    (∀ i, i < 3 →
      (passR roundDouble 3
        (assembleAR roundDouble 3 d (buildR roundDouble 3 [(1, 2), (2, 3), (3, 1)]).St)
        (assembleBR roundDouble 3 d) (initRankR roundDouble 3)).1 i
        = initRankR roundDouble 3 i) :=
  ⟨⟨by decide, by decide, d_pos, d_lt_one, by decide!⟩, by decide!, by decide!, by decide!⟩

/-- Claim C20, counterexample: on 3 entities without edges and `d = 0.75`, the
source's double-precision pass from the start vector takes the total absolute
residual `Σ_i |b[i] - (A p)[i]|` from 0 to `3 · 2⁻⁵⁶`; a further pass returns
the vector unchanged, so its residual `3 · 2⁻⁵⁶`, taken exactly or as the source
evaluates it, is not contracted by the factor `d`. -/
theorem no_edges_double_residual :
    (1 ≤ 3 ∧ InRange 3 [] ∧ 0 < d ∧ d < 1) ∧
    ∑ i in Finset.range 3,
      |residual 3 (assembleAR roundDouble 3 d (buildR roundDouble 3 []).St)
        (assembleBR roundDouble 3 d) (initRankR roundDouble 3) i| = 0 ∧
    ∑ i in Finset.range 3,
      |residual 3 (assembleAR roundDouble 3 d (buildR roundDouble 3 []).St)
        (assembleBR roundDouble 3 d)
        (passR roundDouble 3 (assembleAR roundDouble 3 d (buildR roundDouble 3 []).St)
          (assembleBR roundDouble 3 d) (initRankR roundDouble 3)).1 i|
      = 3 / 72057594037927936 ∧
    ¬ (∑ i in Finset.range 3,
      |residual 3 (assembleAR roundDouble 3 d (buildR roundDouble 3 []).St)
        (assembleBR roundDouble 3 d)
        (passR roundDouble 3 (assembleAR roundDouble 3 d (buildR roundDouble 3 []).St)
          (assembleBR roundDouble 3 d) (initRankR roundDouble 3)).1 i| ≤
      d * ∑ i in Finset.range 3,
        |residual 3 (assembleAR roundDouble 3 d (buildR roundDouble 3 []).St)
          (assembleBR roundDouble 3 d) (initRankR roundDouble 3) i|) ∧
    (∀ i, i < 3 →
      (passR roundDouble 3 (assembleAR roundDouble 3 d (buildR roundDouble 3 []).St)
        (assembleBR roundDouble 3 d)
        (passR roundDouble 3 (assembleAR roundDouble 3 d (buildR roundDouble 3 []).St)
          (assembleBR roundDouble 3 d) (initRankR roundDouble 3)).1).1 i =
      (passR roundDouble 3 (assembleAR roundDouble 3 d (buildR roundDouble 3 []).St)
        (assembleBR roundDouble 3 d) (initRankR roundDouble 3)).1 i) ∧
    ∑ i in Finset.range 3,
      |residualR roundDouble 3 (assembleAR roundDouble 3 d (buildR roundDouble 3 []).St)
        (assembleBR roundDouble 3 d)
        (passR roundDouble 3 (assembleAR roundDouble 3 d (buildR roundDouble 3 []).St)
          (assembleBR roundDouble 3 d) (initRankR roundDouble 3)).1 i|
      = 3 / 72057594037927936 ∧
    ¬ (∑ i in Finset.range 3,
      |residual 3 (assembleAR roundDouble 3 d (buildR roundDouble 3 []).St)
        (assembleBR roundDouble 3 d)
        (passR roundDouble 3 (assembleAR roundDouble 3 d (buildR roundDouble 3 []).St)
          (assembleBR roundDouble 3 d)
          (passR roundDouble 3 (assembleAR roundDouble 3 d (buildR roundDouble 3 []).St)
            (assembleBR roundDouble 3 d) (initRankR roundDouble 3)).1).1 i| ≤
      d * ∑ i in Finset.range 3,
        |residual 3 (assembleAR roundDouble 3 d (buildR roundDouble 3 []).St)
          (assembleBR roundDouble 3 d)
          (passR roundDouble 3 (assembleAR roundDouble 3 d (buildR roundDouble 3 []).St)
            (assembleBR roundDouble 3 d) (initRankR roundDouble 3)).1 i|) ∧
    ¬ (∑ i in Finset.range 3,
      |residualR roundDouble 3 (assembleAR roundDouble 3 d (buildR roundDouble 3 []).St)
        (assembleBR roundDouble 3 d)
        (passR roundDouble 3 (assembleAR roundDouble 3 d (buildR roundDouble 3 []).St)
          (assembleBR roundDouble 3 d)
          (passR roundDouble 3 (assembleAR roundDouble 3 d (buildR roundDouble 3 []).St)
            (assembleBR roundDouble 3 d) (initRankR roundDouble 3)).1).1 i| ≤
      d * ∑ i in Finset.range 3,
        |residualR roundDouble 3 (assembleAR roundDouble 3 d (buildR roundDouble 3 []).St)
          (assembleBR roundDouble 3 d)
          (passR roundDouble 3 (assembleAR roundDouble 3 d (buildR roundDouble 3 []).St)
            (assembleBR roundDouble 3 d) (initRankR roundDouble 3)).1 i|) := by
  refine ⟨⟨by decide, by decide, d_pos, d_lt_one⟩, ?_, ?_, ?_, ?_, ?_, ?_, ?_⟩
  · decide!
  · decide!
  · decide!
  · decide!
  · decide!
  · decide!
  · decide!
end PageRank
